import Mathlib

/-!
Verification development for the bar-generation core and configuration
component of the `polars-trading` repository.

The embedding models:
  * `src/polars_trading/bars.py` — `time_bars`, `tick_bars`, `volume_bars`,
    `dollar_bars` together with the helper `_ohlcv_expr` and the row-splitting
    materialisation built around the `bar_groups` plugin expression;
  * `src/polars_trading/_utils.py` — `validate_columns`;
  * `src/polars_trading/config.py` — `Config`, `ColumnNames` and
    `DEFAULT_COLUMN_NAMES`.

Trades are rows with a symbol, a nanosecond timestamp (an integer), an
optional price (nullable column) and a size.  Prices, sizes and bar sizes are
rationals; polars' float arithmetic is modelled exactly.
-/

set_option autoImplicit false

namespace PolarsTrading

/-- A raw input trade row: `symbol`, nanosecond timestamp `ts`, nullable
`price`, and `size`. -/
structure Trade where
  symbol : String
  ts : ℤ
  price : Option ℚ
  size : ℚ
  deriving DecidableEq

/-- A trade row after `drop_nulls(subset=price_col)`: the price is known. -/
structure Row where
  symbol : String
  ts : ℤ
  price : ℚ
  size : ℚ
  deriving DecidableEq

/-- `df.drop_nulls(subset=price_col)`: rows with a null price are removed. -/
def dropNulls (ts : List Trade) : List Row :=
  ts.filterMap fun t => t.price.map fun p => ⟨t.symbol, t.ts, p, t.size⟩

/-- Nanoseconds per calendar day. -/
def nsPerDay : ℤ := 86400000000000

/-- `pl.col(timestamp_col).dt.date()`: the calendar date of a nanosecond
timestamp, as the (floor) number of days since the epoch. -/
def tsDate (ts : ℤ) : ℤ := Int.fdiv ts nsPerDay

/-- Stable insertion of `a` into `l`, ordered by the integer key `f`. -/
def insortIns {α : Type} (f : α → ℤ) (a : α) : List α → List α
  | [] => [a]
  | b :: l => if f a ≤ f b then a :: b :: l else b :: insortIns f a l

/-- Stable insertion sort by the integer key `f`; models a polars `sort`. -/
def isortBy {α : Type} (f : α → ℤ) : List α → List α
  | [] => []
  | a :: l => insortIns f a (isortBy f l)

/-- `df.sort(timestamp_col)` on null-price-free rows. -/
def sortByTs (rows : List Row) : List Row := isortBy (·.ts) rows

/-- The per-row partition key used in `.over(*over_cols)`: the symbol, plus
the calendar date when `split_by_date=true` (the second component is `0`
when dates are not split on, matching `over_cols = [symbol_col]`). -/
def partKey (splitByDate : Bool) (r : Row) : String × ℤ :=
  (r.symbol, if splitByDate then tsDate r.ts else 0)

/-- `x mod B` on rationals (`cumvol_start % volume_threshold` in the
reference helper): `x - B * ⌊x / B⌋`. -/
def qmod (x B : ℚ) : ℚ := x - B * ⌊x / B⌋

/-- Pointwise update of a per-partition state function. -/
def stUpdate {K : Type} [DecidableEq K] (st : K → ℚ) (k : K) (v : ℚ) : K → ℚ :=
  fun k' => if k' = k then v else st k'

/-- Modelled from the spec: the compiled `bar_groups` plugin (its Rust source
is not in the repository) composed with `.over(*over_cols)`, as described by
spec §4.2 and the docstring of `_bar_groups_expr`.  Each row is assigned a
struct with two fields: the group id `⌊start / bar_size⌋` of the cumulative
metric `start` accumulated over the row's partition before the row, and the
amount `min m (bar_size - start mod bar_size)` of the row's metric `m` that
fits in that group. -/
def assign {K : Type} [DecidableEq K] (B : ℚ) (key : Row → K) (metric : Row → ℚ) :
    List Row → (K → ℚ) → List (Row × ℤ × ℚ)
  | [], _ => []
  | r :: rs, st =>
      let s := st (key r)
      (r, ⌊s / B⌋, min (metric r) (B - qmod s B)) ::
        assign B key metric rs (stUpdate st (key r) (s + metric r))

/-- The rows that one assigned row contributes to the pre-aggregation split
stream: the original row with its size replaced by the allocated amount, plus
— when the allocated amount differs from the row's size — one duplicate row
carrying the remainder in group `id + 1` (the `vstack`/`filter`/`select`
stage of `volume_bars` and `dollar_bars`). -/
def splitRowsOf (x : Row × ℤ × ℚ) : List (Row × ℤ) :=
  ({ x.1 with size := x.2.2 }, x.2.1) ::
    (if x.1.size = x.2.2 then [] else [({ x.1 with size := x.1.size - x.2.2 }, x.2.1 + 1)])

/-- The pre-aggregation split stream as the code builds it: the original rows
(sizes replaced by the allocated amounts), then — `vstack` appends at the
bottom — the duplicate rows of all trades whose size differs from the
allocated amount, carrying the remainder in group `id + 1`. -/
def splitStream (l : List (Row × ℤ × ℚ)) : List (Row × ℤ) :=
  l.map (fun x => ({ x.1 with size := x.2.2 }, x.2.1)) ++
    (l.filter fun x => x.1.size ≠ x.2.2).map
      (fun x => ({ x.1 with size := x.1.size - x.2.2 }, x.2.1 + 1))

/-- Per-partition view of `assign`: the metric values of one partition paired
with their group id and allocated amount, starting from the cumulative value
`s`. -/
def withGroups (B : ℚ) : ℚ → List ℚ → List (ℚ × ℤ × ℚ)
  | _, [] => []
  | s, m :: ms => (m, ⌊s / B⌋, min m (B - qmod s B)) :: withGroups B (s + m) ms

/-- The metric amount that one `(metric, group id, allocated amount)` triple
contributes to group `g` through its split rows: the allocated amount when
the triple's group is `g`, plus the remainder when the triple splits and the
remainder lands in `g`. -/
def contrib (g : ℤ) (t : ℚ × ℤ × ℚ) : ℚ :=
  (if t.2.1 = g then t.2.2 else 0) +
    (if t.2.2 ≠ t.1 ∧ t.2.1 + 1 = g then t.1 - t.2.2 else 0)

/-- `x` clamped to group `g`'s metric interval `[g·B, (g+1)·B]`. -/
def clampQ (g : ℤ) (B x : ℚ) : ℚ :=
  max ((g : ℚ) * B) (min x (((g : ℚ) + 1) * B))

/-- First-occurrence list of group keys, modelling the group identities of a
polars `group_by` (one group per distinct key). -/
def firstKeys {κ : Type} [DecidableEq κ] : List κ → List κ
  | [] => []
  | k :: l => k :: (firstKeys l).filter fun k' => k' ≠ k

/-- Largest element of a list of rationals (`pl.max`); `0` on the empty list,
which never occurs for a materialised group. -/
def listMax : List ℚ → ℚ
  | [] => 0
  | p :: ps => ps.foldl max p

/-- Smallest element of a list of rationals (`pl.min`); `0` on the empty
list. -/
def listMin : List ℚ → ℚ
  | [] => 0
  | p :: ps => ps.foldl min p

/-- The aggregated OHLCV fields produced by `_ohlcv_expr` for one group. -/
structure Ohlcv where
  tsStart : ℤ
  tsEnd : ℤ
  open_ : ℚ
  high : ℚ
  low : ℚ
  close : ℚ
  vwap : ℚ
  volume : ℚ
  nTrades : ℕ
  deriving DecidableEq

/-- `_ohlcv_expr` applied to the rows of one group, in frame order:
first/last timestamp and price, max/min price, `vwap = Σ p·s / Σ s`,
`volume = Σ s` and the row count. -/
def ohlcvAgg (rows : List Row) : Ohlcv where
  tsStart := ((rows.head?).map (·.ts)).getD 0
  tsEnd := ((rows.getLast?).map (·.ts)).getD 0
  open_ := ((rows.head?).map (·.price)).getD 0
  high := listMax (rows.map (·.price))
  low := listMin (rows.map (·.price))
  close := ((rows.getLast?).map (·.price)).getD 0
  vwap := (rows.map fun r => r.price * r.size).sum / (rows.map (·.size)).sum
  volume := (rows.map (·.size)).sum
  nTrades := rows.length

/-- `group_by(...).agg(_ohlcv_expr ...)`: one `(key, Ohlcv)` pair per distinct
group key, in first-occurrence order, aggregating the group's rows in frame
order. -/
def barsOf {α κ : Type} [DecidableEq κ] (gk : α → κ) (toRow : α → Row)
    (l : List α) : List (κ × Ohlcv) :=
  (firstKeys (l.map gk)).map fun k => (k, ohlcvAgg ((l.filter fun x => gk x = k).map toRow))

/-- One output bar row of `tick_bars` / `volume_bars` / `dollar_bars` after
the internal group id (and date) columns are dropped. -/
structure Bar where
  symbol : String
  tsStart : ℤ
  tsEnd : ℤ
  open_ : ℚ
  high : ℚ
  low : ℚ
  close : ℚ
  vwap : ℚ
  volume : ℚ
  nTrades : ℕ
  deriving DecidableEq

/-- Re-attach the symbol to the aggregated fields to form an output bar. -/
def mkBar (sym : String) (o : Ohlcv) : Bar :=
  ⟨sym, o.tsStart, o.tsEnd, o.open_, o.high, o.low, o.close, o.vwap, o.volume, o.nTrades⟩

/-! ### volume_bars -/

/-- The assigned rows of `volume_bars`: null prices dropped, rows sorted by
timestamp, and the `bar_groups` expression evaluated over
`symbol[, date]` partitions on the size column. -/
def volumeAssigned (B : ℚ) (splitByDate : Bool) (trades : List Trade) :
    List (Row × ℤ × ℚ) :=
  assign B (partKey splitByDate) (·.size) (sortByTs (dropNulls trades)) (fun _ => 0)

/-- The pre-aggregation split stream of `volume_bars`. -/
def volumeSplit (B : ℚ) (splitByDate : Bool) (trades : List Trade) :
    List (Row × ℤ) :=
  splitStream (volumeAssigned B splitByDate trades)

/-- The bars of `volume_bars` with their `(partition key, group id)` still
attached (the frame right before `.drop("bar_group__id")`). -/
def volumeBarsKeyed (B : ℚ) (splitByDate : Bool) (trades : List Trade) :
    List (((String × ℤ) × ℤ) × Ohlcv) :=
  barsOf (fun x => (partKey splitByDate x.1, x.2)) (·.1)
    (volumeSplit B splitByDate trades)

/-- `volume_bars`: group ids and dates dropped, bars sorted by the end
timestamp. -/
def volume_bars (B : ℚ) (splitByDate : Bool) (trades : List Trade) : List Bar :=
  isortBy (·.tsEnd) ((volumeBarsKeyed B splitByDate trades).map fun kb => mkBar kb.1.1.1 kb.2)

/-! ### dollar_bars -/

/-- The assigned rows of `dollar_bars`: the `bar_groups` expression is
evaluated on the `__dollar_volume = price * size` column, and the allocated
dollar amount is then divided by the price (`truediv`) to express it in size
units. -/
def dollarAssigned (B : ℚ) (splitByDate : Bool) (trades : List Trade) :
    List (Row × ℤ × ℚ) :=
  (assign B (partKey splitByDate) (fun r => r.price * r.size)
      (sortByTs (dropNulls trades)) (fun _ => 0)).map
    fun x => (x.1, x.2.1, x.2.2 / x.1.price)

/-- The pre-aggregation split stream of `dollar_bars`. -/
def dollarSplit (B : ℚ) (splitByDate : Bool) (trades : List Trade) :
    List (Row × ℤ) :=
  splitStream (dollarAssigned B splitByDate trades)

/-- The bars of `dollar_bars` with their `(partition key, group id)` still
attached. -/
def dollarBarsKeyed (B : ℚ) (splitByDate : Bool) (trades : List Trade) :
    List (((String × ℤ) × ℤ) × Ohlcv) :=
  barsOf (fun x => (partKey splitByDate x.1, x.2)) (·.1)
    (dollarSplit B splitByDate trades)

/-- `dollar_bars`: group ids and dates dropped, bars sorted by the end
timestamp. -/
def dollar_bars (B : ℚ) (splitByDate : Bool) (trades : List Trade) : List Bar :=
  isortBy (·.tsEnd) ((dollarBarsKeyed B splitByDate trades).map fun kb => mkBar kb.1.1.1 kb.2)

/-! ### tick_bars -/

/-- Pointwise update of a per-partition counter. -/
def cntUpdate {K : Type} [DecidableEq K] (st : K → ℕ) (k : K) (v : ℕ) : K → ℕ :=
  fun k' => if k' = k then v else st k'

/-- `((cum_count over partition) - 1) // bar_size`: each row is tagged with
its `__tick_group`, the zero-based ordinal of the row within its partition
divided by the bar size. -/
def tickAssign {K : Type} [DecidableEq K] (n : ℕ) (key : Row → K) :
    List Row → (K → ℕ) → List (Row × ℕ)
  | [], _ => []
  | r :: rs, st =>
      (r, st (key r) / n) :: tickAssign n key rs (cntUpdate st (key r) (st (key r) + 1))

/-- The `__tick_group`-tagged rows of `tick_bars`. -/
def tickTagged (n : ℕ) (splitByDate : Bool) (trades : List Trade) :
    List (Row × ℕ) :=
  tickAssign n (partKey splitByDate) (sortByTs (dropNulls trades)) (fun _ => 0)

/-- The bars of `tick_bars` with their `(partition key, tick group)` still
attached. -/
def tickBarsKeyed (n : ℕ) (splitByDate : Bool) (trades : List Trade) :
    List (((String × ℤ) × ℕ) × Ohlcv) :=
  barsOf (fun x => (partKey splitByDate x.1, x.2)) (·.1)
    (tickTagged n splitByDate trades)

/-- `tick_bars`: tick groups and dates dropped, bars sorted by the end
timestamp. -/
def tick_bars (n : ℕ) (splitByDate : Bool) (trades : List Trade) : List Bar :=
  isortBy (·.tsEnd) ((tickBarsKeyed n splitByDate trades).map fun kb => mkBar kb.1.1.1 kb.2)

/-! ### time_bars -/

/-- `pl.col(timestamp_col).dt.truncate(bar_size)`: floor the timestamp to a
multiple of the bar duration (in nanoseconds). -/
def truncTs (dur ts : ℤ) : ℤ := dur * Int.fdiv ts dur

/-- `time_bars` with the bar duration already resolved to nanoseconds: group
by `(truncate(ts), symbol)`, aggregate, sort by the end timestamp.  The
output keeps the truncated timestamp and symbol as its key. -/
def time_bars (dur : ℤ) (trades : List Trade) : List ((ℤ × String) × Ohlcv) :=
  isortBy (·.2.tsEnd)
    (barsOf (fun r => (truncTs dur r.ts, r.symbol)) id (sortByTs (dropNulls trades)))

/-! ### validate_columns -/

/-- `validate_columns`: collect the required column names missing from the
frame's columns; return the error message when any is missing. -/
def validate_columns (dfCols required : List String) : Option String :=
  let missing := required.filter fun c => ¬ dfCols.contains c
  if missing.isEmpty then none
  else some ("Missing columns: " ++ String.intercalate ", " missing)

/-- `time_bars` behind its `validate_columns` decorator: the resolved
timestamp/price/size/symbol column names must all be present in the frame's
columns before any rows are touched. -/
def time_bars_checked (dfCols : List String) (tsN pN sN symN : String)
    (dur : ℤ) (trades : List Trade) : Except String (List ((ℤ × String) × Ohlcv)) :=
  match validate_columns dfCols [tsN, pN, sN, symN] with
  | some msg => .error msg
  | none => .ok (time_bars dur trades)

/-- `tick_bars` behind its `validate_columns` decorator. -/
def tick_bars_checked (dfCols : List String) (tsN pN sN symN : String)
    (n : ℕ) (splitByDate : Bool) (trades : List Trade) : Except String (List Bar) :=
  match validate_columns dfCols [tsN, pN, sN, symN] with
  | some msg => .error msg
  | none => .ok (tick_bars n splitByDate trades)

/-- `volume_bars` behind its `validate_columns` decorator. -/
def volume_bars_checked (dfCols : List String) (tsN pN sN symN : String)
    (B : ℚ) (splitByDate : Bool) (trades : List Trade) : Except String (List Bar) :=
  match validate_columns dfCols [tsN, pN, sN, symN] with
  | some msg => .error msg
  | none => .ok (volume_bars B splitByDate trades)

/-- `dollar_bars` behind its `validate_columns` decorator. -/
def dollar_bars_checked (dfCols : List String) (tsN pN sN symN : String)
    (B : ℚ) (splitByDate : Bool) (trades : List Trade) : Except String (List Bar) :=
  match validate_columns dfCols [tsN, pN, sN, symN] with
  | some msg => .error msg
  | none => .ok (dollar_bars B splitByDate trades)

/-! ### Configuration (`src/polars_trading/config.py`)

The configuration context is a `ContextVar` holding `None` or a Python dict.
A dict is modelled as an association list whose lookup returns the first
match; the merge `{**current, **options}` is modelled by prepending the
overriding entries, which yields the same lookup function. -/

/-- A Python dict of configuration options, as an association list. -/
abbrev ConfigDict := List (String × String)

/-- `DEFAULT_COLUMN_NAMES`: the eight known column roles and their default
names. -/
def DEFAULT_COLUMN_NAMES : ConfigDict :=
  [("open", "open"), ("high", "high"), ("low", "low"), ("close", "close"),
   ("size", "size"), ("timestamp", "timestamp"), ("symbol", "symbol"),
   ("price", "price")]

/-- `_config_context.get({})`: the current dict, `{}` when the context var
still holds its `None` default. -/
def currentConfig (st : Option ConfigDict) : ConfigDict := st.getD []

/-- `{**current, **options}`: the merged dict (options override). -/
def dictMerge (cur opts : ConfigDict) : ConfigDict := opts ++ cur

/-- Replace every occurrence of `pat` (non-overlapping, left to right) in a
character list by nothing; models Python's `str.replace(pat, "")`. -/
def replaceAllChars (pat : List Char) : List Char → List Char
  | [] => []
  | c :: cs =>
      if pat ≠ [] ∧ pat.isPrefixOf (c :: cs) then
        replaceAllChars pat ((c :: cs).drop pat.length)
      else
        c :: replaceAllChars pat cs
  termination_by l => l.length
  decreasing_by
    · rename_i h
      simp only [List.length_drop, List.length_cons]
      have hne : pat.length ≠ 0 := fun hlen => h.1 (List.length_eq_zero.mp hlen)
      omega
    · simp

/-- `key.replace("_column", "") if key.endswith("_column") else key`: the key
under which the defaults dict is consulted.  Note Python's `replace` removes
every occurrence of `"_column"`, not only the suffix. -/
def stripColumnKey (key : String) : String :=
  if "_column".data.isSuffixOf key.data then ⟨replaceAllChars "_column".data key.data⟩
  else key

/-- `Config.get`: look the key up in the current context dict, falling back
to the defaults dict under the stripped key, and finally to `""`. -/
def configGet (st : Option ConfigDict) (key : String) : String :=
  (((currentConfig st).lookup key).getD
    ((DEFAULT_COLUMN_NAMES.lookup (stripColumnKey key)).getD ""))

/-- The context key `ColumnNames.__getattr__` consults: the attribute name
itself when it ends in `"_column"`, else the name with `"_column"`
appended. -/
def attrColumnKey (name : String) : String :=
  if "_column".data.isSuffixOf name.data then name else name ++ "_column"

/-- The defaults key `ColumnNames.__getattr__` consults: the attribute name
with every `"_column"` occurrence removed when it ends in `"_column"`, else
the name itself. -/
def attrDefaultKey (name : String) : String :=
  if "_column".data.isSuffixOf name.data then ⟨replaceAllChars "_column".data name.data⟩
  else name

/-- `ColumnNames.__getattr__`: attribute access resolves `name` through the
context under `name`/`name + "_column"` and through the defaults under the
stripped name. -/
def columnNamesGetattr (st : Option ConfigDict) (name : String) : String :=
  (((currentConfig st).lookup (attrColumnKey name)).getD
    ((DEFAULT_COLUMN_NAMES.lookup (attrDefaultKey name)).getD ""))

/-- `Config.__enter__`: read the current dict, merge the options over it, set
the merged dict and remember the previous context value in the token.
Returns `(new context value, token)`. -/
def configEnter (st : Option ConfigDict) (opts : ConfigDict) :
    Option ConfigDict × Option (Option ConfigDict) :=
  (some (dictMerge (currentConfig st) opts), some st)

/-- `Config.__exit__`: whether the block ended normally or with an exception
(`raised` is ignored, as the source ignores `exc_type`/`exc_val`/`exc_tb`),
reset the context var to the token's stored value when a token was taken. -/
def configExit (_raised : Bool) (st : Option ConfigDict)
    (token : Option (Option ConfigDict)) : Option ConfigDict :=
  match token with
  | some prev => prev
  | none => st

/-- The claim's reading of the base name, rendered from the spec sentence's
words: strip one trailing `"_column"` suffix (and nothing else). -/
def specStripSuffix (key : String) : String :=
  if "_column".data.isSuffixOf key.data then ⟨key.data.take (key.data.length - 7)⟩
  else key

/-! ## Generic list lemmas -/

theorem sum_filter_eq_sum_ite {α : Type} (p : α → Bool) (f : α → ℚ) :
    ∀ l : List α, ((l.filter p).map f).sum = (l.map fun x => if p x then f x else 0).sum := by
  intro l
  induction l with
  | nil => rfl
  | cons a l ih =>
    by_cases h : p a <;> simp [List.filter_cons, h, ih]

theorem sum_filterMap_eq_sum {α β : Type} (g : α → Option β) (f : β → ℚ) :
    ∀ l : List α, ((l.filterMap g).map f).sum = (l.map fun x => ((g x).map f).getD 0).sum := by
  intro l
  induction l with
  | nil => rfl
  | cons a l ih =>
    cases hg : g a <;> simp [List.filterMap_cons, hg, ih]

theorem sum_map_add_distrib {α : Type} (u v : α → ℚ) :
    ∀ l : List α, (l.map fun x => u x + v x).sum = (l.map u).sum + (l.map v).sum := by
  intro l
  induction l with
  | nil => simp
  | cons a l ih => simp only [List.map_cons, List.sum_cons, ih]; ring

theorem map_append_filter_perm {α β : Type} (f g : α → β) (p : α → Bool) :
    ∀ l : List α,
      List.Perm (l.map f ++ (l.filter p).map g)
        (l.flatMap fun x => f x :: if p x then [g x] else []) := by
  intro l
  induction l with
  | nil => simp
  | cons a l ih =>
    cases hpa : p a with
    | false =>
        simp only [List.map_cons, List.filter_cons, hpa, Bool.false_eq_true, if_false,
          List.flatMap_cons, List.cons_append]
        exact List.Perm.cons _ ih
    | true =>
        simp only [List.map_cons, List.filter_cons, hpa, if_true, List.map_cons,
          List.flatMap_cons, List.cons_append, List.singleton_append]
        exact List.Perm.cons _ (List.perm_middle.trans (List.Perm.cons _ ih))

/-! ## Facts about the split materialisation -/

theorem splitStream_eq_flatMap_shape (x : Row × ℤ × ℚ) :
    splitRowsOf x =
      ({ x.1 with size := x.2.2 }, x.2.1) ::
        (if (x.1.size ≠ x.2.2 : Bool) then [({ x.1 with size := x.1.size - x.2.2 }, x.2.1 + 1)]
         else []) := by
  by_cases h : x.1.size = x.2.2 <;> simp [splitRowsOf, h]

theorem splitStream_perm (l : List (Row × ℤ × ℚ)) :
    List.Perm (splitStream l) (l.flatMap splitRowsOf) := by
  have h := map_append_filter_perm (fun x : Row × ℤ × ℚ => ({ x.1 with size := x.2.2 }, x.2.1))
    (fun x : Row × ℤ × ℚ => ({ x.1 with size := x.1.size - x.2.2 }, x.2.1 + 1))
    (fun x : Row × ℤ × ℚ => x.1.size ≠ x.2.2) l
  have hfun : (fun x : Row × ℤ × ℚ =>
      (({ x.1 with size := x.2.2 }, x.2.1) ::
        (if (x.1.size ≠ x.2.2 : Bool)
         then [({ x.1 with size := x.1.size - x.2.2 }, x.2.1 + 1)] else []) : List (Row × ℤ))) =
      splitRowsOf := funext fun x => (splitStream_eq_flatMap_shape x).symm
  rw [splitStream]
  exact hfun ▸ h

theorem splitRowsOf_size_sum (x : Row × ℤ × ℚ) :
    ((splitRowsOf x).map fun y => y.1.size).sum = x.1.size := by
  by_cases h : x.1.size = x.2.2
  · simp [splitRowsOf, h]
  · simp only [splitRowsOf, if_neg h, List.map_cons, List.map_nil, List.sum_cons,
      List.sum_nil]
    ring

theorem splitRowsOf_dollar_sum (x : Row × ℤ × ℚ) :
    ((splitRowsOf x).map fun y => y.1.price * y.1.size).sum = x.1.price * x.1.size := by
  by_cases h : x.1.size = x.2.2
  · simp [splitRowsOf, h]
  · simp only [splitRowsOf, if_neg h, List.map_cons, List.map_nil, List.sum_cons,
      List.sum_nil]
    ring

theorem splitRowsOf_length (x : Row × ℤ × ℚ) :
    1 ≤ (splitRowsOf x).length ∧ (splitRowsOf x).length ≤ 2 := by
  by_cases h : x.1.size = x.2.2 <;> simp [splitRowsOf, h]

theorem splitRowsOf_group_cases (x : Row × ℤ × ℚ) :
    ∀ y ∈ splitRowsOf x,
      (y.2 = x.2.1 ∧ y.1.size = x.2.2) ∨
      (y.2 = x.2.1 + 1 ∧ y.1.size = x.1.size - x.2.2) := by
  intro y hy
  by_cases h : x.1.size = x.2.2
  · simp only [splitRowsOf, if_pos h, List.mem_singleton] at hy
    subst hy; exact Or.inl ⟨rfl, rfl⟩
  · simp only [splitRowsOf, if_neg h, List.mem_cons, List.mem_singleton,
      List.not_mem_nil, or_false] at hy
    rcases hy with hy | hy <;> subst hy
    · exact Or.inl ⟨rfl, rfl⟩
    · exact Or.inr ⟨rfl, rfl⟩

/-- C1: for every trade processed by `volume_bars` or `dollar_bars`, the
split rows derived from that trade (its assigned row plus its optional
duplicate; the split stream is exactly the concatenation of these, up to the
bottom-append order of `vstack`) carry sizes summing exactly to the trade's
size, hence for volume bars the allocated sizes sum to the trade's size and
for dollar bars the allocated `price * size` amounts sum exactly (the
rationals model the float computation without rounding, so "within epsilon"
holds as exact equality) to the trade's `price * size`. -/
theorem allocation_conservation :
    (∀ (B : ℚ) (sbd : Bool) (trades : List Trade),
      List.Perm (volumeSplit B sbd trades)
        ((volumeAssigned B sbd trades).flatMap splitRowsOf) ∧
      ∀ x ∈ volumeAssigned B sbd trades,
        ((splitRowsOf x).map fun y => y.1.size).sum = x.1.size) ∧
    (∀ (B : ℚ) (sbd : Bool) (trades : List Trade),
      List.Perm (dollarSplit B sbd trades)
        ((dollarAssigned B sbd trades).flatMap splitRowsOf) ∧
      ∀ x ∈ dollarAssigned B sbd trades,
        ((splitRowsOf x).map fun y => y.1.price * y.1.size).sum
          = x.1.price * x.1.size) := by
  constructor
  · intro B sbd trades
    exact ⟨splitStream_perm _, fun x _ => splitRowsOf_size_sum x⟩
  · intro B sbd trades
    exact ⟨splitStream_perm _, fun x _ => splitRowsOf_dollar_sum x⟩

/-- Witness for C1 at a concrete input: the single trade
`{symbol="A", ts=0, price=3, size=8}` with `bar_size = 5` is assigned
`(group 0, amount 5)`, and its split rows' sizes sum to `8`. -/
theorem allocation_conservation_witness :
    ((⟨⟨"A", 0, 3, 8⟩, 0, 5⟩ : Row × ℤ × ℚ) ∈ volumeAssigned 5 true [⟨"A", 0, some 3, 8⟩]) ∧
    ((splitRowsOf (⟨⟨"A", 0, 3, 8⟩, 0, 5⟩ : Row × ℤ × ℚ)).map fun y => y.1.size).sum
      = (⟨⟨"A", 0, 3, 8⟩, 0, 5⟩ : Row × ℤ × ℚ).1.size :=
  ⟨by with_unfolding_all decide,
   (allocation_conservation.1 5 true [⟨"A", 0, some 3, 8⟩]).2 _
     (by with_unfolding_all decide)⟩

/-- C4: in `volume_bars` and `dollar_bars`, every input trade produces at
most two rows in the pre-aggregation split stream — the original row with
its assigned group id, plus at most one duplicate carrying the entire
remainder in group `id + 1` — and never touches any other group, no matter
how far the trade's metric exceeds `bar_size`. -/
theorem at_most_two_split_rows :
    (∀ (B : ℚ) (sbd : Bool) (trades : List Trade),
      List.Perm (volumeSplit B sbd trades)
        ((volumeAssigned B sbd trades).flatMap splitRowsOf) ∧
      ∀ x ∈ volumeAssigned B sbd trades,
        (splitRowsOf x).length ≤ 2 ∧
        ∀ y ∈ splitRowsOf x,
          (y.2 = x.2.1 ∧ y.1.size = x.2.2) ∨
          (y.2 = x.2.1 + 1 ∧ y.1.size = x.1.size - x.2.2)) ∧
    (∀ (B : ℚ) (sbd : Bool) (trades : List Trade),
      List.Perm (dollarSplit B sbd trades)
        ((dollarAssigned B sbd trades).flatMap splitRowsOf) ∧
      ∀ x ∈ dollarAssigned B sbd trades,
        (splitRowsOf x).length ≤ 2 ∧
        ∀ y ∈ splitRowsOf x,
          (y.2 = x.2.1 ∧ y.1.size = x.2.2) ∨
          (y.2 = x.2.1 + 1 ∧ y.1.size = x.1.size - x.2.2)) := by
  constructor
  · intro B sbd trades
    exact ⟨splitStream_perm _,
      fun x _ => ⟨(splitRowsOf_length x).2, splitRowsOf_group_cases x⟩⟩
  · intro B sbd trades
    exact ⟨splitStream_perm _,
      fun x _ => ⟨(splitRowsOf_length x).2, splitRowsOf_group_cases x⟩⟩

/-- Witness for C4 at a concrete input: a trade of size `12` against
`bar_size = 5` splits into exactly two rows, in groups `0` and `1`. -/
theorem at_most_two_split_rows_witness :
    ((⟨⟨"A", 0, 1, 12⟩, 0, 5⟩ : Row × ℤ × ℚ) ∈ volumeAssigned 5 true [⟨"A", 0, some 1, 12⟩]) ∧
    (splitRowsOf (⟨⟨"A", 0, 1, 12⟩, 0, 5⟩ : Row × ℤ × ℚ)).length ≤ 2 ∧
    ∀ y ∈ splitRowsOf (⟨⟨"A", 0, 1, 12⟩, 0, 5⟩ : Row × ℤ × ℚ),
      (y.2 = 0 ∧ y.1.size = 5) ∨ (y.2 = 0 + 1 ∧ y.1.size = 12 - 5) :=
  ⟨by with_unfolding_all decide,
   (at_most_two_split_rows.1 5 true [⟨"A", 0, some 1, 12⟩]).2 _
     (by with_unfolding_all decide)⟩

/-! ## Basic facts about `assign` -/

theorem assign_fst {K : Type} [DecidableEq K] (B : ℚ) (key : Row → K) (metric : Row → ℚ) :
    ∀ (rows : List Row) (st : K → ℚ),
      (assign B key metric rows st).map (·.1) = rows := by
  intro rows
  induction rows with
  | nil => intro st; rfl
  | cons r rows ih => intro st; simp [assign, ih]

theorem assign_length {K : Type} [DecidableEq K] (B : ℚ) (key : Row → K) (metric : Row → ℚ)
    (rows : List Row) (st : K → ℚ) :
    (assign B key metric rows st).length = rows.length := by
  have h := congrArg List.length (assign_fst B key metric rows st)
  simpa using h

theorem splitStream_length_le (l : List (Row × ℤ × ℚ)) :
    (splitStream l).length ≤ 2 * l.length := by
  have h := List.length_filter_le (fun x : Row × ℤ × ℚ => x.1.size ≠ x.2.2) l
  simp only [splitStream, List.length_append, List.length_map]
  omega

/-- C3 (amended): on the single trade `{symbol="A", price=3.0, size=8, ts=T0}`,
`volume_bars` with `bar_size=5` returns exactly two bars, in output order the
first with `volume = 5` and the second with `volume = 3` (the assigner fills
the open group first and carries the remainder into the next group), both
with `n_trades = 1` and `open = high = low = close = vwap = 3.0`; the two
volumes sum to 8. -/
theorem single_trade_split_amended :
    volume_bars 5 true [⟨"A", 0, some 3, 8⟩] =
      [⟨"A", 0, 0, 3, 3, 3, 3, 3, 5, 1⟩, ⟨"A", 0, 0, 3, 3, 3, 3, 3, 3, 1⟩] := by
  with_unfolding_all decide

/-- C3 counterexample: on the claim's input the bar volumes in output order
are `[5, 3]`, not `[3, 5]` as claimed. -/
theorem single_trade_split_counterexample :
    (volume_bars 5 true [⟨"A", 0, some 3, 8⟩]).map Bar.volume = [5, 3] ∧
    ¬ ((volume_bars 5 true [⟨"A", 0, some 3, 8⟩]).map Bar.volume = [3, 5]) := by
  with_unfolding_all decide

/-- C6 (amended): `dollar_bars` does not expand a trade into unit-size rows;
each input row yields exactly one assigned row (the assigner is
length-preserving), the pre-aggregation split stream has at most twice as
many rows as the input, and every assigned row materialises as one or two
split rows — never `size`-many. -/
theorem dollar_split_rows_amended :
    ∀ (B : ℚ) (sbd : Bool) (trades : List Trade),
      (dollarAssigned B sbd trades).length = (sortByTs (dropNulls trades)).length ∧
      (dollarSplit B sbd trades).length ≤ 2 * (sortByTs (dropNulls trades)).length ∧
      ∀ x ∈ dollarAssigned B sbd trades,
        1 ≤ (splitRowsOf x).length ∧ (splitRowsOf x).length ≤ 2 := by
  intro B sbd trades
  have hlen : (dollarAssigned B sbd trades).length = (sortByTs (dropNulls trades)).length := by
    simp [dollarAssigned, assign_length]
  refine ⟨hlen, ?_, fun x _ => splitRowsOf_length x⟩
  have h := splitStream_length_le (dollarAssigned B sbd trades)
  rw [hlen] at h
  exact h

/-- Witness for C6's amended statement at a concrete input: the trade
`{symbol="A", price=2, size=3}` with `bar_size=100` is assigned one row with
(dollar amount 6) / (price 2) = size 3, which materialises as one split row. -/
theorem dollar_split_rows_amended_witness :
    ((⟨⟨"A", 0, 2, 3⟩, 0, 3⟩ : Row × ℤ × ℚ) ∈ dollarAssigned 100 true [⟨"A", 0, some 2, 3⟩]) ∧
    (1 ≤ (splitRowsOf (⟨⟨"A", 0, 2, 3⟩, 0, 3⟩ : Row × ℤ × ℚ)).length ∧
      (splitRowsOf (⟨⟨"A", 0, 2, 3⟩, 0, 3⟩ : Row × ℤ × ℚ)).length ≤ 2) :=
  ⟨by with_unfolding_all decide,
   (dollar_split_rows_amended 100 true [⟨"A", 0, some 2, 3⟩]).2.2 _
     (by with_unfolding_all decide)⟩

/-- C6 counterexample: for the trade `{symbol="A", price=2, size=3}` the
pre-aggregation split stream of `dollar_bars` holds one row, not
`size = 3` unit rows. -/
theorem dollar_unit_expansion_counterexample :
    (dollarSplit 100 true [⟨"A", 0, some 2, 3⟩]).length = 1 ∧
    (⟨"A", 0, some 2, 3⟩ : Trade).size = 3 ∧
    ¬ ((dollarSplit 100 true [⟨"A", 0, some 2, 3⟩]).length = 3) := by
  with_unfolding_all decide

/-! ## Column validation -/

theorem validate_filter_eq_nil_iff (dfCols req : List String) :
    (req.filter fun c => ¬ dfCols.contains c) = [] ↔ ∀ c ∈ req, c ∈ dfCols := by
  rw [List.filter_eq_nil_iff]
  constructor
  · intro h c hc
    have := h c hc
    simpa [List.contains, List.elem_iff] using this
  · intro h c hc
    simpa [List.contains, List.elem_iff] using h c hc

theorem validate_columns_none_iff (dfCols req : List String) :
    validate_columns dfCols req = none ↔ ∀ c ∈ req, c ∈ dfCols := by
  rw [← validate_filter_eq_nil_iff dfCols req]
  unfold validate_columns
  by_cases h : (req.filter fun c => ¬ dfCols.contains c) = []
  · simp [h]
  · simp [h, List.isEmpty_iff]

theorem validate_match_spec {α : Type} (dfCols req : List String) (val : α) :
    ((match validate_columns dfCols req with
      | some msg => (Except.error msg : Except String α)
      | none => .ok val).isOk = true ↔ ∀ c ∈ req, c ∈ dfCols) ∧
    ((∀ c ∈ req, c ∈ dfCols) →
      (match validate_columns dfCols req with
        | some msg => (Except.error msg : Except String α)
        | none => .ok val) = .ok val) := by
  cases hv : validate_columns dfCols req with
  | none =>
      refine ⟨?_, fun _ => rfl⟩
      simpa [Except.isOk, Except.toBool] using (validate_columns_none_iff dfCols req).mp hv
  | some msg =>
      constructor
      · simp only [Except.isOk, Except.toBool]
        constructor
        · intro h; exact absurd h (by simp)
        · intro h
          rw [(validate_columns_none_iff dfCols req).mpr h] at hv
          exact absurd hv (by simp)
      · intro h
        rw [(validate_columns_none_iff dfCols req).mpr h] at hv
        exact absurd hv (by simp)

/-- C8: for each of `time_bars`, `tick_bars`, `volume_bars` and
`dollar_bars`, the call succeeds exactly when every resolved
timestamp/price/size/symbol column name is present in the frame's columns —
independently of the row content, so a missing column fails immediately at
call time — and when all four are present the wrapper returns the bar
computation unchanged (no such error is raised). -/
theorem validate_columns_schema_error :
    ∀ (dfCols : List String) (tsN pN sN symN : String),
      (∀ (dur : ℤ) (trades : List Trade),
        ((time_bars_checked dfCols tsN pN sN symN dur trades).isOk = true
          ↔ ∀ c ∈ [tsN, pN, sN, symN], c ∈ dfCols) ∧
        ((∀ c ∈ [tsN, pN, sN, symN], c ∈ dfCols) →
          time_bars_checked dfCols tsN pN sN symN dur trades
            = .ok (time_bars dur trades))) ∧
      (∀ (n : ℕ) (sbd : Bool) (trades : List Trade),
        ((tick_bars_checked dfCols tsN pN sN symN n sbd trades).isOk = true
          ↔ ∀ c ∈ [tsN, pN, sN, symN], c ∈ dfCols) ∧
        ((∀ c ∈ [tsN, pN, sN, symN], c ∈ dfCols) →
          tick_bars_checked dfCols tsN pN sN symN n sbd trades
            = .ok (tick_bars n sbd trades))) ∧
      (∀ (B : ℚ) (sbd : Bool) (trades : List Trade),
        ((volume_bars_checked dfCols tsN pN sN symN B sbd trades).isOk = true
          ↔ ∀ c ∈ [tsN, pN, sN, symN], c ∈ dfCols) ∧
        ((∀ c ∈ [tsN, pN, sN, symN], c ∈ dfCols) →
          volume_bars_checked dfCols tsN pN sN symN B sbd trades
            = .ok (volume_bars B sbd trades))) ∧
      (∀ (B : ℚ) (sbd : Bool) (trades : List Trade),
        ((dollar_bars_checked dfCols tsN pN sN symN B sbd trades).isOk = true
          ↔ ∀ c ∈ [tsN, pN, sN, symN], c ∈ dfCols) ∧
        ((∀ c ∈ [tsN, pN, sN, symN], c ∈ dfCols) →
          dollar_bars_checked dfCols tsN pN sN symN B sbd trades
            = .ok (dollar_bars B sbd trades))) := by
  intro dfCols tsN pN sN symN
  exact ⟨fun dur trades => validate_match_spec dfCols _ _,
    fun n sbd trades => validate_match_spec dfCols _ _,
    fun B sbd trades => validate_match_spec dfCols _ _,
    fun B sbd trades => validate_match_spec dfCols _ _⟩

/-- Witness for C8 at a concrete input: with the default column names all
present, `volume_bars_checked` returns `ok`; the hypothesis that the four
names are present is discharged by computation. -/
theorem validate_columns_schema_error_witness :
    (∀ c ∈ ["timestamp", "price", "size", "symbol"],
        c ∈ ["timestamp", "price", "size", "symbol", "extra"]) ∧
    volume_bars_checked ["timestamp", "price", "size", "symbol", "extra"]
        "timestamp" "price" "size" "symbol" 5 true [⟨"A", 0, some 3, 8⟩]
      = .ok (volume_bars 5 true [⟨"A", 0, some 3, 8⟩]) :=
  ⟨by decide,
   ((validate_columns_schema_error ["timestamp", "price", "size", "symbol", "extra"]
      "timestamp" "price" "size" "symbol").2.2.1 5 true [⟨"A", 0, some 3, 8⟩]).2 (by decide)⟩

/-! ## Configuration claims -/

/-- C9: using `Config` as a context manager is frame-preserving: whatever the
prior context value and whatever the context value is when the block ends
(even after intervening `Config.set` calls), and whether the block exits
normally or by exception, `__exit__` restores exactly the prior value — so
every key resolves afterwards as before — while inside the block the passed
options override the prior state and every unmentioned key resolves as it
did before entry. -/
theorem config_context_frame_preservation :
    ∀ (prior : Option ConfigDict) (opts : ConfigDict) (raised : Bool)
      (stInside : Option ConfigDict),
      configExit raised stInside (configEnter prior opts).2 = prior ∧
      (∀ k v, opts.lookup k = some v → configGet (configEnter prior opts).1 k = v) ∧
      (∀ k, opts.lookup k = none →
        configGet (configEnter prior opts).1 k = configGet prior k) := by
  intro prior opts raised stInside
  refine ⟨rfl, ?_, ?_⟩
  · intro k v hv
    simp [configGet, configEnter, currentConfig, dictMerge, List.lookup_append, hv]
  · intro k hv
    simp [configGet, configEnter, currentConfig, dictMerge, List.lookup_append, hv]

/-- Witness for C9 at a concrete input: entering with
`open_column="context"` over the prior state `open_column="global"` makes
the key resolve to `"context"` inside the block, the untouched key `"size"`
resolve as before, and exit (here: with an exception, after an intervening
state change) restores the prior state. -/
theorem config_context_frame_preservation_witness :
    ([("open_column", "context")].lookup "open_column" = some "context" ∧
      configGet (configEnter (some [("open_column", "global")])
          [("open_column", "context")]).1 "open_column" = "context") ∧
    ([("open_column", "context")].lookup "size_column" = none ∧
      configGet (configEnter (some [("open_column", "global")])
          [("open_column", "context")]).1 "size_column"
        = configGet (some [("open_column", "global")]) "size_column") ∧
    configExit true (some [("other", "x")])
        (configEnter (some [("open_column", "global")]) [("open_column", "context")]).2
      = some [("open_column", "global")] :=
  ⟨⟨by with_unfolding_all decide,
    (config_context_frame_preservation (some [("open_column", "global")])
        [("open_column", "context")] true (some [("other", "x")])).2.1
      "open_column" "context" (by with_unfolding_all decide)⟩,
   ⟨by with_unfolding_all decide,
    (config_context_frame_preservation (some [("open_column", "global")])
        [("open_column", "context")] true (some [("other", "x")])).2.2
      "size_column" (by with_unfolding_all decide)⟩,
   (config_context_frame_preservation (some [("open_column", "global")])
      [("open_column", "context")] true (some [("other", "x")])).1⟩

/-- C10 (amended): `Config.get` and `ColumnNames.__getattr__` are total — a
key present in the current context dict (for attribute access: under the
`_column`-suffixed context key) returns the stored value; otherwise, when
removing every occurrence of `"_column"` from a key that ends in
`"_column"` (Python's `str.replace` removes all occurrences, not only the
suffix; a key without the suffix is used verbatim) yields one of the eight
known roles, the role's default name is returned; any other key yields the
empty string. -/
theorem config_get_total_amended :
    ∀ (st : Option ConfigDict) (key : String),
      ((∀ v, (currentConfig st).lookup key = some v → configGet st key = v) ∧
       ((currentConfig st).lookup key = none →
         (∀ v, DEFAULT_COLUMN_NAMES.lookup (stripColumnKey key) = some v →
            configGet st key = v) ∧
         (DEFAULT_COLUMN_NAMES.lookup (stripColumnKey key) = none →
            configGet st key = ""))) ∧
      ((∀ v, (currentConfig st).lookup (attrColumnKey key) = some v →
          columnNamesGetattr st key = v) ∧
       ((currentConfig st).lookup (attrColumnKey key) = none →
         (∀ v, DEFAULT_COLUMN_NAMES.lookup (attrDefaultKey key) = some v →
            columnNamesGetattr st key = v) ∧
         (DEFAULT_COLUMN_NAMES.lookup (attrDefaultKey key) = none →
            columnNamesGetattr st key = ""))) := by
  intro st key
  constructor
  · constructor
    · intro v hv; simp [configGet, hv]
    · intro hnone
      exact ⟨fun v hv => by simp [configGet, hnone, hv],
        fun hd => by simp [configGet, hnone, hd]⟩
  · constructor
    · intro v hv; simp [columnNamesGetattr, hv]
    · intro hnone
      exact ⟨fun v hv => by simp [columnNamesGetattr, hnone, hv],
        fun hd => by simp [columnNamesGetattr, hnone, hd]⟩

/-- Witness for C10's amended statement at concrete inputs: a context-set
key returns the stored value, and an unset key whose replace-all base name
is no known role returns `""`. -/
theorem config_get_total_amended_witness :
    ((currentConfig (some [("open_column", "o")])).lookup "open_column" = some "o" ∧
      configGet (some [("open_column", "o")]) "open_column" = "o") ∧
    ((currentConfig none).lookup "foo" = none ∧
      DEFAULT_COLUMN_NAMES.lookup (stripColumnKey "foo") = none ∧
      configGet none "foo" = "") :=
  ⟨⟨by with_unfolding_all decide,
    (config_get_total_amended (some [("open_column", "o")]) "open_column").1.1 "o"
      (by with_unfolding_all decide)⟩,
   ⟨by with_unfolding_all decide, by with_unfolding_all decide,
    ((config_get_total_amended none "foo").1.2 (by with_unfolding_all decide)).2
      (by with_unfolding_all decide)⟩⟩

/-- C10 counterexample: for the key `"si_columnze_column"` — which ends in
`"_column"` and whose base name after stripping that suffix is
`"si_columnze"`, not one of the eight roles — both `Config.get` and
attribute access return `"size"` (because `str.replace` removes the interior
`"_column"` occurrence too), not `""` as the claim predicts. -/
theorem config_get_strip_counterexample :
    configGet none "si_columnze_column" = "size" ∧
    columnNamesGetattr none "si_columnze_column" = "size" ∧
    specStripSuffix "si_columnze_column" = "si_columnze" ∧
    DEFAULT_COLUMN_NAMES.lookup (specStripSuffix "si_columnze_column") = none ∧
    ("size" : String) ≠ "" := by
  with_unfolding_all decide

/-! ## Partition leakage -/

/-- C5: with `split_by_date=true`, every row contributing to a bar of
`tick_bars`, `volume_bars` or `dollar_bars` carries the bar's symbol and the
bar's calendar date — the grouping key contains both, so no bar's trades
span two symbols or two dates. -/
theorem no_partition_leakage :
    ∀ (trades : List Trade),
      (∀ (n : ℕ), ∀ kb ∈ tickBarsKeyed n true trades,
        ∀ x ∈ tickTagged n true trades, (partKey true x.1, x.2) = kb.1 →
          x.1.symbol = kb.1.1.1 ∧ tsDate x.1.ts = kb.1.1.2) ∧
      (∀ (B : ℚ), ∀ kb ∈ volumeBarsKeyed B true trades,
        ∀ x ∈ volumeSplit B true trades, (partKey true x.1, x.2) = kb.1 →
          x.1.symbol = kb.1.1.1 ∧ tsDate x.1.ts = kb.1.1.2) ∧
      (∀ (B : ℚ), ∀ kb ∈ dollarBarsKeyed B true trades,
        ∀ x ∈ dollarSplit B true trades, (partKey true x.1, x.2) = kb.1 →
          x.1.symbol = kb.1.1.1 ∧ tsDate x.1.ts = kb.1.1.2) := by
  have key_spec : ∀ (r : Row) (k : (String × ℤ) × ℤ) (g : ℤ),
      (partKey true r, g) = k → r.symbol = k.1.1 ∧ tsDate r.ts = k.1.2 := by
    intro r k g h
    have h1 : partKey true r = k.1 := congrArg Prod.fst h
    constructor
    · rw [← h1]; rfl
    · rw [← h1]; simp [partKey]
  have key_spec_nat : ∀ (r : Row) (k : (String × ℤ) × ℕ) (g : ℕ),
      (partKey true r, g) = k → r.symbol = k.1.1 ∧ tsDate r.ts = k.1.2 := by
    intro r k g h
    have h1 : partKey true r = k.1 := congrArg Prod.fst h
    constructor
    · rw [← h1]; rfl
    · rw [← h1]; simp [partKey]
  intro trades
  exact ⟨fun n kb _ x _ h => key_spec_nat x.1 kb.1 x.2 h,
    fun B kb _ x _ h => key_spec x.1 kb.1 x.2 h,
    fun B kb _ x _ h => key_spec x.1 kb.1 x.2 h⟩

/-- Witness for C5 at a concrete input: the single volume bar of one trade,
with its one contributing row, carries that row's symbol and date. -/
theorem no_partition_leakage_witness :
    (((("A", 0), 0), (⟨0, 0, 1, 1, 1, 1, 1, 2, 1⟩ : Ohlcv)) ∈
        volumeBarsKeyed 5 true [⟨"A", 0, some 1, 2⟩]) ∧
    (((⟨"A", 0, 1, 2⟩, 0) : Row × ℤ) ∈ volumeSplit 5 true [⟨"A", 0, some 1, 2⟩]) ∧
    ((partKey true (⟨"A", 0, 1, 2⟩ : Row), (0 : ℤ)) = (("A", 0), 0)) ∧
    ((⟨"A", 0, 1, 2⟩ : Row).symbol = "A" ∧ tsDate (⟨"A", 0, 1, 2⟩ : Row).ts = 0) :=
  ⟨by with_unfolding_all decide, by with_unfolding_all decide, by with_unfolding_all decide,
   (no_partition_leakage [⟨"A", 0, some 1, 2⟩]).2.1 5
     ((("A", 0), 0), (⟨0, 0, 1, 1, 1, 1, 1, 2, 1⟩ : Ohlcv))
     (by with_unfolding_all decide) (⟨"A", 0, 1, 2⟩, 0)
     (by with_unfolding_all decide) (by with_unfolding_all decide)⟩

/-! ## Sorting lemmas -/

theorem insortIns_perm {α : Type} (f : α → ℤ) (a : α) :
    ∀ l : List α, List.Perm (insortIns f a l) (a :: l) := by
  intro l
  induction l with
  | nil => exact List.Perm.refl _
  | cons b l ih =>
    by_cases h : f a ≤ f b
    · simp [insortIns, h]
    · simp only [insortIns, if_neg h]
      exact (List.Perm.cons b ih).trans (List.Perm.swap a b l)

theorem isortBy_perm {α : Type} (f : α → ℤ) :
    ∀ l : List α, List.Perm (isortBy f l) l := by
  intro l
  induction l with
  | nil => exact List.Perm.refl _
  | cons a l ih =>
    exact (insortIns_perm f a (isortBy f l)).trans (List.Perm.cons a ih)

theorem isortBy_length {α : Type} (f : α → ℤ) (l : List α) :
    (isortBy f l).length = l.length :=
  (isortBy_perm f l).length_eq

theorem insortIns_pairwise {α : Type} (f : α → ℤ) (a : α) :
    ∀ l : List α, List.Pairwise (fun x y => f x ≤ f y) l →
      List.Pairwise (fun x y => f x ≤ f y) (insortIns f a l) := by
  intro l
  induction l with
  | nil => intro _; simp [insortIns]
  | cons b l ih =>
    intro h
    rw [List.pairwise_cons] at h
    by_cases hab : f a ≤ f b
    · simp only [insortIns, if_pos hab]
      rw [List.pairwise_cons]
      refine ⟨?_, List.pairwise_cons.mpr h⟩
      intro y hy
      rcases List.mem_cons.mp hy with hy | hy
      · exact hy ▸ hab
      · exact le_trans hab (h.1 y hy)
    · simp only [insortIns, if_neg hab]
      rw [List.pairwise_cons]
      refine ⟨?_, ih h.2⟩
      intro y hy
      have hy' := (insortIns_perm f a l).mem_iff.mp hy
      rcases List.mem_cons.mp hy' with hy' | hy'
      · exact hy' ▸ le_of_not_le hab
      · exact h.1 y hy'

theorem isortBy_pairwise {α : Type} (f : α → ℤ) :
    ∀ l : List α, List.Pairwise (fun x y => f x ≤ f y) (isortBy f l) := by
  intro l
  induction l with
  | nil => simp [isortBy]
  | cons a l ih => exact insortIns_pairwise f a _ ih

theorem isortBy_eq_self {α : Type} (f : α → ℤ) :
    ∀ l : List α, List.Pairwise (fun x y => f x ≤ f y) l → isortBy f l = l := by
  intro l
  induction l with
  | nil => intro _; rfl
  | cons a l ih =>
    intro h
    rw [List.pairwise_cons] at h
    show insortIns f a (isortBy f l) = a :: l
    rw [ih h.2]
    cases l with
    | nil => rfl
    | cons b l => simp [insortIns, h.1 b (List.mem_cons_self b l)]

/-! ## dropNulls lemmas -/

theorem dropNulls_length (trades : List Trade) (h : ∀ t ∈ trades, t.price ≠ none) :
    (dropNulls trades).length = trades.length := by
  induction trades with
  | nil => rfl
  | cons t trades ih =>
    cases hp : t.price with
    | none => exact absurd hp (h t (List.mem_cons_self t trades))
    | some p =>
      simp only [dropNulls, List.filterMap_cons, hp, Option.map_some']
      simp only [dropNulls] at ih
      simp [ih fun u hu => h u (List.mem_cons_of_mem t hu)]

theorem mem_dropNulls_size {r : Row} {trades : List Trade} (hr : r ∈ dropNulls trades) :
    ∃ t ∈ trades, t.size = r.size ∧ t.price = some r.price := by
  simp only [dropNulls, List.mem_filterMap] at hr
  obtain ⟨t, ht, hf⟩ := hr
  cases hp : t.price with
  | none => rw [hp] at hf; exact absurd hf (by simp)
  | some p =>
    rw [hp] at hf
    simp only [Option.map_some', Option.some.injEq] at hf
    exact ⟨t, ht, by rw [← hf], by rw [← hf, hp]⟩

/-! ## tick group lemmas -/

theorem tickAssign_fst {K : Type} [DecidableEq K] (n : ℕ) (key : Row → K) :
    ∀ (rows : List Row) (st : K → ℕ),
      (tickAssign n key rows st).map (·.1) = rows := by
  intro rows
  induction rows with
  | nil => intro st; rfl
  | cons r rows ih => intro st; simp [tickAssign, ih]

theorem tickAssign_cnt_ge {K : Type} [DecidableEq K] (key : Row → K) :
    ∀ (rows : List Row) (st : K → ℕ) (x : Row × ℕ),
      x ∈ tickAssign 1 key rows st → st (key x.1) ≤ x.2 := by
  intro rows
  induction rows with
  | nil => intro st x hx; simp [tickAssign] at hx
  | cons r rows ih =>
    intro st x hx
    rcases List.mem_cons.mp hx with hx | hx
    · subst hx; simp
    · have h1 := ih _ x hx
      refine le_trans ?_ h1
      unfold cntUpdate
      by_cases hk : key x.1 = key r
      · rw [if_pos hk, hk]; omega
      · rw [if_neg hk]

theorem tickAssign_pairwise {K : Type} [DecidableEq K] (key : Row → K) :
    ∀ (rows : List Row) (st : K → ℕ),
      List.Pairwise (fun a b => key a.1 = key b.1 → a.2 < b.2)
        (tickAssign 1 key rows st) := by
  intro rows
  induction rows with
  | nil => intro st; simp [tickAssign]
  | cons r rows ih =>
    intro st
    rw [show tickAssign 1 key (r :: rows) st =
      (r, st (key r) / 1) :: tickAssign 1 key rows
        (cntUpdate st (key r) (st (key r) + 1)) from rfl]
    rw [List.pairwise_cons]
    refine ⟨?_, ih _⟩
    intro y hy hk
    have h1 := tickAssign_cnt_ge key rows _ y hy
    have h2 : cntUpdate st (key r) (st (key r) + 1) (key y.1) = st (key r) + 1 := by
      unfold cntUpdate
      rw [if_pos hk.symm]
    rw [h2] at h1
    simp only [Nat.div_one]
    omega

theorem tickTagged_keys_nodup (sbd : Bool) (trades : List Trade) :
    ((tickTagged 1 sbd trades).map fun x => (partKey sbd x.1, x.2)).Nodup := by
  have h := tickAssign_pairwise (partKey sbd) (sortByTs (dropNulls trades)) (fun _ => 0)
  refine List.pairwise_map.mpr (h.imp ?_)
  intro a b hab
  simp only [ne_eq, Prod.mk.injEq, not_and]
  intro h1
  have := hab h1
  omega

/-! ## Grouping lemmas -/

theorem mem_firstKeys {κ : Type} [DecidableEq κ] :
    ∀ (l : List κ) (k : κ), k ∈ firstKeys l ↔ k ∈ l := by
  intro l
  induction l with
  | nil => intro k; simp [firstKeys]
  | cons a l ih =>
    intro k
    simp only [firstKeys, List.mem_cons, List.mem_filter, ih, decide_not]
    by_cases hk : k = a
    · simp [hk]
    · simp [hk]

theorem firstKeys_eq_self {κ : Type} [DecidableEq κ] :
    ∀ l : List κ, l.Nodup → firstKeys l = l := by
  intro l
  induction l with
  | nil => intro _; rfl
  | cons a l ih =>
    intro h
    rw [List.nodup_cons] at h
    show a :: (firstKeys l).filter (fun k' => k' ≠ a) = a :: l
    rw [ih h.2]
    congr 1
    refine List.filter_eq_self.mpr ?_
    intro x hx
    simp only [ne_eq, decide_eq_true_eq]
    exact fun hxa => h.1 (hxa ▸ hx)

theorem filter_gk_eq_singleton {α κ : Type} [DecidableEq κ] (gk : α → κ) :
    ∀ l : List α, (l.map gk).Nodup →
      ∀ x ∈ l, (l.filter fun y => gk y = gk x) = [x] := by
  intro l
  induction l with
  | nil => intro _ x hx; simp at hx
  | cons a l ih =>
    intro h x hx
    rw [List.map_cons, List.nodup_cons] at h
    rcases List.mem_cons.mp hx with hx | hx
    · subst hx
      rw [List.filter_cons_of_pos (by simp)]
      have : (l.filter fun y => gk y = gk x) = [] := by
        refine List.filter_eq_nil_iff.mpr ?_
        intro y hy
        simp only [decide_eq_true_eq]
        intro hgy
        exact h.1 (hgy ▸ List.mem_map_of_mem gk hy)
      rw [this]
    · rw [List.filter_cons_of_neg ?_, ih h.2 x hx]
      simp only [decide_eq_true_eq]
      intro hga
      exact h.1 (hga ▸ List.mem_map_of_mem gk hx)

theorem barsOf_nodup {α κ : Type} [DecidableEq κ] (gk : α → κ) (toRow : α → Row)
    (l : List α) (h : (l.map gk).Nodup) :
    barsOf gk toRow l = l.map fun x => (gk x, ohlcvAgg [toRow x]) := by
  unfold barsOf
  rw [firstKeys_eq_self _ h, List.map_map]
  refine List.map_congr_left ?_
  intro x hx
  simp only [Function.comp_apply]
  rw [filter_gk_eq_singleton gk l h x hx]
  rfl

/-- C7: with every price non-null (per the claim) and every size nonzero
(`size > 0` is part of the spec's Trade data model, needed so the singleton
vwap `p·s / s` is defined), `tick_bars` with `bar_size = 1` reproduces the
trade stream one-for-one: it returns one bar per input trade, in timestamp
order, each bar copying the trade's timestamp as both endpoints, its price
as open/high/low/close/vwap and its size as volume, with `n_trades = 1`. -/
theorem tick_bars_size_one_identity :
    ∀ trades : List Trade,
      (∀ t ∈ trades, t.price ≠ none) →
      (∀ t ∈ trades, t.size ≠ 0) →
      tick_bars 1 true trades
        = (sortByTs (dropNulls trades)).map
            (fun r => ⟨r.symbol, r.ts, r.ts, r.price, r.price, r.price, r.price,
              r.price, r.size, 1⟩) ∧
      (tick_bars 1 true trades).length = trades.length := by
  intro trades hnn hsz
  have hsize : ∀ r ∈ sortByTs (dropNulls trades), r.size ≠ 0 := by
    intro r hr
    unfold sortByTs at hr
    have hmem : r ∈ dropNulls trades :=
      (isortBy_perm (fun r : Row => r.ts) (dropNulls trades)).mem_iff.mp hr
    obtain ⟨t, ht, hts, _⟩ := mem_dropNulls_size hmem
    rw [← hts]
    exact hsz t ht
  have hkeyed : tickBarsKeyed 1 true trades
      = (tickTagged 1 true trades).map
          (fun x => ((partKey true x.1, x.2), ohlcvAgg [x.1])) :=
    barsOf_nodup _ _ _ (tickTagged_keys_nodup true trades)
  have hmap : (tickBarsKeyed 1 true trades).map (fun kb => mkBar kb.1.1.1 kb.2)
      = (sortByTs (dropNulls trades)).map
          (fun r => ⟨r.symbol, r.ts, r.ts, r.price, r.price, r.price, r.price,
            r.price, r.size, 1⟩) := by
    rw [hkeyed, List.map_map]
    have hfst : (tickTagged 1 true trades).map (·.1) = sortByTs (dropNulls trades) :=
      tickAssign_fst 1 (partKey true) _ _
    calc (tickTagged 1 true trades).map
          ((fun kb => mkBar kb.1.1.1 kb.2) ∘ fun x => ((partKey true x.1, x.2), ohlcvAgg [x.1]))
        = (tickTagged 1 true trades).map
            ((fun r => mkBar r.symbol (ohlcvAgg [r])) ∘ (·.1)) := by
          refine List.map_congr_left ?_
          intro x _
          rfl
      _ = ((tickTagged 1 true trades).map (·.1)).map
            (fun r => mkBar r.symbol (ohlcvAgg [r])) := by rw [List.map_map]
      _ = (sortByTs (dropNulls trades)).map (fun r => mkBar r.symbol (ohlcvAgg [r])) := by
          rw [hfst]
      _ = (sortByTs (dropNulls trades)).map
            (fun r => ⟨r.symbol, r.ts, r.ts, r.price, r.price, r.price, r.price,
              r.price, r.size, 1⟩) := by
          refine List.map_congr_left ?_
          intro r hr
          simp only [mkBar, ohlcvAgg, List.map_cons, List.map_nil, List.head?_cons,
            List.getLast?_singleton, Option.map_some', Option.getD_some, listMax, listMin,
            List.foldl_nil, List.sum_cons, List.sum_nil, List.length_cons, List.length_nil,
            add_zero]
          have hv : r.price * r.size / r.size = r.price :=
            mul_div_cancel_right₀ r.price (hsize r hr)
          rw [hv]
  have hsorted : List.Pairwise (fun a b : Bar => a.tsEnd ≤ b.tsEnd)
      ((tickBarsKeyed 1 true trades).map (fun kb => mkBar kb.1.1.1 kb.2)) := by
    rw [hmap]
    refine List.pairwise_map.mpr ?_
    have := isortBy_pairwise (fun r : Row => r.ts) (dropNulls trades)
    exact this.imp (fun h => h)
  constructor
  · rw [tick_bars, isortBy_eq_self _ _ hsorted, hmap]
  · rw [tick_bars, isortBy_length, List.length_map, hkeyed, List.length_map]
    have h1 := congrArg List.length (tickAssign_fst 1 (partKey true)
      (sortByTs (dropNulls trades)) (fun _ => 0))
    rw [List.length_map] at h1
    rw [show tickTagged 1 true trades = tickAssign 1 (partKey true)
      (sortByTs (dropNulls trades)) (fun _ => 0) from rfl, h1]
    unfold sortByTs
    rw [isortBy_length, dropNulls_length trades hnn]

/-- Witness for C7 at a concrete input: two non-null, nonzero-size trades
yield two singleton bars, one per trade, in timestamp order. -/
theorem tick_bars_size_one_identity_witness :
    (∀ t ∈ [(⟨"A", 5, some 2, 7⟩ : Trade), ⟨"A", 3, some 4, 9⟩], t.price ≠ none) ∧
    (∀ t ∈ [(⟨"A", 5, some 2, 7⟩ : Trade), ⟨"A", 3, some 4, 9⟩], t.size ≠ 0) ∧
    (tick_bars 1 true [⟨"A", 5, some 2, 7⟩, ⟨"A", 3, some 4, 9⟩]
        = (sortByTs (dropNulls [⟨"A", 5, some 2, 7⟩, ⟨"A", 3, some 4, 9⟩])).map
            (fun r => ⟨r.symbol, r.ts, r.ts, r.price, r.price, r.price, r.price,
              r.price, r.size, 1⟩) ∧
      (tick_bars 1 true [⟨"A", 5, some 2, 7⟩, ⟨"A", 3, some 4, 9⟩]).length = 2) :=
  ⟨by with_unfolding_all decide, by with_unfolding_all decide,
   tick_bars_size_one_identity [⟨"A", 5, some 2, 7⟩, ⟨"A", 3, some 4, 9⟩]
     (by with_unfolding_all decide) (by with_unfolding_all decide)⟩

/-! ## Interval arithmetic for the threshold bound -/

theorem floor_mul_le (B : ℚ) (hB : 0 < B) (s : ℚ) : (⌊s / B⌋ : ℚ) * B ≤ s := by
  calc (⌊s / B⌋ : ℚ) * B ≤ (s / B) * B :=
        mul_le_mul_of_nonneg_right (Int.floor_le (s / B)) hB.le
    _ = s := div_mul_cancel₀ s hB.ne'

theorem lt_floor_add_one_mul (B : ℚ) (hB : 0 < B) (s : ℚ) :
    s < ((⌊s / B⌋ : ℚ) + 1) * B := by
  calc s = (s / B) * B := (div_mul_cancel₀ s hB.ne').symm
    _ < ((⌊s / B⌋ : ℚ) + 1) * B :=
        mul_lt_mul_of_pos_right (Int.lt_floor_add_one (s / B)) hB

theorem qmod_nonneg (B s : ℚ) (hB : 0 < B) : 0 ≤ qmod s B := by
  have h := floor_mul_le B hB s
  unfold qmod
  nlinarith

theorem qmod_lt (B s : ℚ) (hB : 0 < B) : qmod s B < B := by
  have h := lt_floor_add_one_mul B hB s
  unfold qmod
  nlinarith

theorem contrib_clamp (B : ℚ) (hB : 0 < B) (g : ℤ) (s m : ℚ)
    (hm0 : 0 < m) (hmB : m ≤ B) :
    contrib g (m, ⌊s / B⌋, min m (B - qmod s B)) = clampQ g B (s + m) - clampQ g B s := by
  have hk1 : (⌊s / B⌋ : ℚ) * B ≤ s := floor_mul_le B hB s
  have hk2 : s < ((⌊s / B⌋ : ℚ) + 1) * B := lt_floor_add_one_mul B hB s
  have hcap : B - qmod s B = ((⌊s / B⌋ : ℚ) + 1) * B - s := by unfold qmod; ring
  generalize hkgen : ⌊s / B⌋ = k at hk1 hk2 hcap ⊢
  simp only [contrib]
  rcases lt_trichotomy g k with hg | hg | hg
  · -- the trade lies strictly after group g
    rw [if_neg (by omega), if_neg (by rintro ⟨_, h2⟩; omega)]
    have hgc : (g : ℚ) + 1 ≤ (k : ℚ) := by exact_mod_cast (by omega : g + 1 ≤ k)
    have hgB : ((g : ℚ) + 1) * B ≤ (k : ℚ) * B := mul_le_mul_of_nonneg_right hgc hB.le
    have e1 : ((g : ℚ) + 1) * B ≤ s := le_trans hgB hk1
    have e2 : ((g : ℚ) + 1) * B ≤ s + m := by linarith
    have e3 : (g : ℚ) * B ≤ ((g : ℚ) + 1) * B := by nlinarith
    unfold clampQ
    rw [min_eq_right e1, min_eq_right e2, max_eq_right e3]
    ring
  · -- the trade starts in group g
    subst hg
    rw [if_pos rfl, if_neg (by rintro ⟨_, h2⟩; omega)]
    rw [hcap]
    have f1 : s ≤ ((g : ℚ) + 1) * B := hk2.le
    have f2 : (g : ℚ) * B ≤ s := hk1
    unfold clampQ
    rcases le_total m (((g : ℚ) + 1) * B - s) with hc | hc
    · have f3 : s + m ≤ ((g : ℚ) + 1) * B := by linarith
      have f4 : (g : ℚ) * B ≤ s + m := by linarith
      rw [min_eq_left hc, min_eq_left f3, max_eq_right f4, min_eq_left f1,
        max_eq_right f2]
      ring
    · have f5 : ((g : ℚ) + 1) * B ≤ s + m := by linarith
      have f6 : (g : ℚ) * B ≤ ((g : ℚ) + 1) * B := by nlinarith
      rw [min_eq_right hc, min_eq_right f5, max_eq_right f6, min_eq_left f1,
        max_eq_right f2]
      ring
  · rcases eq_or_lt_of_le (by omega : k + 1 ≤ g) with hg1 | hg2
    · -- the trade's remainder lands in group g = k + 1
      subst hg1
      rw [if_neg (by omega)]
      by_cases hsplit : min m (B - qmod s B) = m
      · rw [if_neg (by rintro ⟨h1, _⟩; exact h1 hsplit)]
        have hm_le : m ≤ ((k : ℚ) + 1) * B - s := by
          rw [hcap] at hsplit
          exact min_eq_left_iff.mp hsplit
        unfold clampQ
        push_cast
        have f1 : s ≤ ((k : ℚ) + 1 + 1) * B := by linarith
        have f2 : s ≤ ((k : ℚ) + 1) * B := hk2.le
        have f3 : s + m ≤ ((k : ℚ) + 1 + 1) * B := by linarith
        have f4 : s + m ≤ ((k : ℚ) + 1) * B := by linarith
        rw [min_eq_left f3, min_eq_left f1, max_eq_left f4, max_eq_left f2]
        ring
      · rw [if_pos ⟨hsplit, rfl⟩]
        have hcap_lt : B - qmod s B < m := by
          rcases le_total m (B - qmod s B) with hle | hle
          · exact absurd (min_eq_left hle) hsplit
          · rcases lt_or_eq_of_le hle with hlt | heq
            · exact hlt
            · exact absurd (by rw [heq, min_self]) hsplit
        have hamt : min m (B - qmod s B) = B - qmod s B := min_eq_right hcap_lt.le
        rw [hamt, hcap]
        have hsum_gt : ((k : ℚ) + 1) * B < s + m := by
          rw [hcap] at hcap_lt; linarith
        have hsum_lt : s + m < ((k : ℚ) + 1 + 1) * B := by linarith
        unfold clampQ
        push_cast
        have f1 : s ≤ ((k : ℚ) + 1 + 1) * B := by linarith
        have f2 : s ≤ ((k : ℚ) + 1) * B := hk2.le
        rw [min_eq_left hsum_lt.le, max_eq_right hsum_gt.le, min_eq_left f1,
          max_eq_left f2]
        ring
    · -- group g lies strictly after the trade
      rw [if_neg (by omega), if_neg (by rintro ⟨_, h2⟩; omega)]
      have hgc : (k : ℚ) + 2 ≤ (g : ℚ) := by exact_mod_cast (by omega : k + 2 ≤ g)
      have hgB : ((k : ℚ) + 2) * B ≤ (g : ℚ) * B := mul_le_mul_of_nonneg_right hgc hB.le
      have f1 : s + m ≤ ((g : ℚ) + 1) * B := by nlinarith
      have f2 : s ≤ ((g : ℚ) + 1) * B := by nlinarith
      have f3 : s + m ≤ (g : ℚ) * B := by linarith
      have f4 : s ≤ (g : ℚ) * B := by linarith
      unfold clampQ
      rw [min_eq_left f1, min_eq_left f2, max_eq_left f3, max_eq_left f4]
      ring

theorem contribSum_withGroups (B : ℚ) (hB : 0 < B) (g : ℤ) :
    ∀ ms : List ℚ, (∀ m ∈ ms, 0 < m ∧ m ≤ B) → ∀ s : ℚ,
      ((withGroups B s ms).map (contrib g)).sum
        = clampQ g B (s + ms.sum) - clampQ g B s := by
  intro ms
  induction ms with
  | nil => intro _ s; simp [withGroups]
  | cons m ms ih =>
    intro h s
    obtain ⟨hm0, hmB⟩ := h m (List.mem_cons_self m ms)
    have htail := ih (fun x hx => h x (List.mem_cons_of_mem m hx)) (s + m)
    simp only [withGroups, List.map_cons, List.sum_cons, htail,
      contrib_clamp B hB g s m hm0 hmB]
    rw [show s + (m + ms.sum) = s + m + ms.sum from by ring]
    ring

theorem assign_filterMap {K : Type} [DecidableEq K] (B : ℚ) (key : Row → K)
    (metric : Row → ℚ) :
    ∀ (rows : List Row) (st : K → ℚ) (k : K),
      (assign B key metric rows st).filterMap
          (fun x => if key x.1 = k then some (metric x.1, x.2) else none)
        = withGroups B (st k) ((rows.filter fun r => key r = k).map metric) := by
  intro rows
  induction rows with
  | nil => intro st k; rfl
  | cons r rows ih =>
    intro st k
    rw [show assign B key metric (r :: rows) st =
      (r, ⌊st (key r) / B⌋, min (metric r) (B - qmod (st (key r)) B)) ::
        assign B key metric rows (stUpdate st (key r) (st (key r) + metric r)) from rfl]
    rw [List.filterMap_cons]
    by_cases h : key r = k
    · have hst : stUpdate st (key r) (st (key r) + metric r) k = st k + metric r := by
        unfold stUpdate
        rw [if_pos h.symm, h]
      rw [List.filter_cons_of_pos (by simp [h]), List.map_cons]
      rw [show withGroups B (st k) (metric r :: (rows.filter fun r => key r = k).map metric)
        = (metric r, ⌊st k / B⌋, min (metric r) (B - qmod (st k) B)) ::
          withGroups B (st k + metric r) ((rows.filter fun r => key r = k).map metric)
        from rfl]
      simp only [h, if_pos]
      rw [ih _ k]
      have hst2 : stUpdate st k (st k + metric r) k = st k + metric r := by
        unfold stUpdate
        rw [if_pos rfl]
      rw [hst2]
    · have hst : stUpdate st (key r) (st (key r) + metric r) k = st k := by
        unfold stUpdate
        rw [if_neg (fun hk => h hk.symm)]
      rw [List.filter_cons_of_neg (by simp [h])]
      simp only [h, if_false, if_neg]
      rw [ih _ k, hst]

theorem assign_mem_shape {K : Type} [DecidableEq K] (B : ℚ) (key : Row → K)
    (metric : Row → ℚ) :
    ∀ (rows : List Row) (st : K → ℚ), ∀ x ∈ assign B key metric rows st,
      ∃ s : ℚ, x.2.1 = ⌊s / B⌋ ∧ x.2.2 = min (metric x.1) (B - qmod s B) := by
  intro rows
  induction rows with
  | nil => intro st x hx; simp [assign] at hx
  | cons r rows ih =>
    intro st x hx
    rw [show assign B key metric (r :: rows) st =
      (r, ⌊st (key r) / B⌋, min (metric r) (B - qmod (st (key r)) B)) ::
        assign B key metric rows (stUpdate st (key r) (st (key r) + metric r)) from rfl] at hx
    rcases List.mem_cons.mp hx with hx | hx
    · exact ⟨st (key r), by rw [hx], by rw [hx]⟩
    · exact ih _ x hx

theorem assign_gid_nonneg {K : Type} [DecidableEq K] (B : ℚ) (hB : 0 < B)
    (key : Row → K) (metric : Row → ℚ) :
    ∀ (rows : List Row) (st : K → ℚ),
      (∀ r ∈ rows, 0 ≤ metric r) → (∀ kk, 0 ≤ st kk) →
      ∀ x ∈ assign B key metric rows st, 0 ≤ x.2.1 := by
  intro rows
  induction rows with
  | nil => intro st _ _ x hx; simp [assign] at hx
  | cons r rows ih =>
    intro st hm hst x hx
    rw [show assign B key metric (r :: rows) st =
      (r, ⌊st (key r) / B⌋, min (metric r) (B - qmod (st (key r)) B)) ::
        assign B key metric rows (stUpdate st (key r) (st (key r) + metric r)) from rfl] at hx
    rcases List.mem_cons.mp hx with hx | hx
    · rw [hx]
      exact Int.floor_nonneg.mpr (div_nonneg (hst _) hB.le)
    · refine ih _ (fun u hu => hm u (List.mem_cons_of_mem r hu)) ?_ x hx
      intro kk
      unfold stUpdate
      by_cases hk : kk = key r
      · rw [if_pos hk]
        exact add_nonneg (hst _) (hm r (List.mem_cons_self r rows))
      · rw [if_neg hk]
        exact hst kk

theorem partKey_set_size (sbd : Bool) (r : Row) (v : ℚ) :
    partKey sbd { r with size := v } = partKey sbd r := rfl

theorem sum_splitStream_orig (sbd : Bool) (kg : (String × ℤ) × ℤ) (f : Row → ℚ) :
    ∀ l : List (Row × ℤ × ℚ),
      (((l.map (fun x => ({ x.1 with size := x.2.2 }, x.2.1))).filter
          fun y : Row × ℤ => (partKey sbd y.1, y.2) = kg).map
        fun y => f y.1).sum
      = (l.map fun x =>
          if partKey sbd x.1 = kg.1 ∧ x.2.1 = kg.2
          then f { x.1 with size := x.2.2 } else 0).sum := by
  intro l
  induction l with
  | nil => rfl
  | cons x l ih =>
    rw [List.map_cons, List.map_cons, List.sum_cons]
    by_cases hP : partKey sbd x.1 = kg.1 ∧ x.2.1 = kg.2
    · rw [List.filter_cons_of_pos
        (by simp only [partKey_set_size, decide_eq_true_eq]
            exact Prod.ext_iff.mpr ⟨hP.1, hP.2⟩),
        List.map_cons, List.sum_cons, ih, if_pos hP]
    · rw [List.filter_cons_of_neg
        (by simp only [partKey_set_size, decide_eq_true_eq]
            exact fun h => hP ⟨congrArg Prod.fst h, congrArg Prod.snd h⟩),
        ih, if_neg hP, zero_add]

theorem sum_splitStream_dup (sbd : Bool) (kg : (String × ℤ) × ℤ) (f : Row → ℚ) :
    ∀ l : List (Row × ℤ × ℚ),
      ((((l.filter fun x => x.1.size ≠ x.2.2).map
            (fun x => ({ x.1 with size := x.1.size - x.2.2 }, x.2.1 + 1))).filter
          fun y : Row × ℤ => (partKey sbd y.1, y.2) = kg).map
        fun y => f y.1).sum
      = (l.map fun x =>
          if x.1.size ≠ x.2.2 ∧ partKey sbd x.1 = kg.1 ∧ x.2.1 + 1 = kg.2
          then f { x.1 with size := x.1.size - x.2.2 } else 0).sum := by
  intro l
  induction l with
  | nil => rfl
  | cons x l ih =>
    rw [List.map_cons, List.sum_cons]
    by_cases hc : x.1.size = x.2.2
    · rw [List.filter_cons_of_neg (by simp [hc]), ih,
        if_neg (by rintro ⟨h1, _⟩; exact h1 hc), zero_add]
    · rw [List.filter_cons_of_pos (by simp [hc]), List.map_cons]
      by_cases hP : partKey sbd x.1 = kg.1 ∧ x.2.1 + 1 = kg.2
      · rw [List.filter_cons_of_pos
          (by simp only [partKey_set_size, decide_eq_true_eq]
              exact Prod.ext_iff.mpr ⟨hP.1, hP.2⟩),
          List.map_cons, List.sum_cons, ih, if_pos ⟨hc, hP⟩]
      · rw [List.filter_cons_of_neg
          (by simp only [partKey_set_size, decide_eq_true_eq]
              exact fun h => hP ⟨congrArg Prod.fst h, congrArg Prod.snd h⟩),
          ih, if_neg (by rintro ⟨_, h2⟩; exact hP h2), zero_add]

theorem sum_splitStream_filter (sbd : Bool) (kg : (String × ℤ) × ℤ)
    (l : List (Row × ℤ × ℚ)) (f : Row → ℚ) :
    (((splitStream l).filter fun y => (partKey sbd y.1, y.2) = kg).map
        fun y => f y.1).sum
      = (l.map fun x =>
          (if partKey sbd x.1 = kg.1 ∧ x.2.1 = kg.2
            then f { x.1 with size := x.2.2 } else 0) +
          (if x.1.size ≠ x.2.2 ∧ partKey sbd x.1 = kg.1 ∧ x.2.1 + 1 = kg.2
            then f { x.1 with size := x.1.size - x.2.2 } else 0)).sum := by
  rw [splitStream, List.filter_append, List.map_append, List.sum_append,
    sum_splitStream_orig sbd kg f l, sum_splitStream_dup sbd kg f l,
    ← sum_map_add_distrib]

theorem volume_group_sum (B : ℚ) (sbd : Bool) (trades : List Trade)
    (kg : (String × ℤ) × ℤ) :
    (((volumeSplit B sbd trades).filter
        fun y => (partKey sbd y.1, y.2) = kg).map fun y => y.1.size).sum
      = ((withGroups B 0 (((sortByTs (dropNulls trades)).filter
            fun r => partKey sbd r = kg.1).map (·.size))).map (contrib kg.2)).sum := by
  have hfm : (volumeAssigned B sbd trades).filterMap
      (fun x => if partKey sbd x.1 = kg.1 then some (x.1.size, x.2) else none)
      = withGroups B 0 (((sortByTs (dropNulls trades)).filter
          fun r => partKey sbd r = kg.1).map (·.size)) := by
    simpa using assign_filterMap B (partKey sbd) (·.size)
      (sortByTs (dropNulls trades)) (fun _ => 0) kg.1
  rw [← hfm, sum_filterMap_eq_sum]
  rw [volumeSplit, sum_splitStream_filter sbd kg _ (fun r => r.size)]
  refine congrArg List.sum (List.map_congr_left ?_)
  intro x _
  by_cases h1 : partKey sbd x.1 = kg.1
  · rw [if_pos h1, Option.map_some', Option.getD_some]
    show _ = contrib kg.2 (x.1.size, x.2.1, x.2.2)
    unfold contrib
    congr 1
    · by_cases h2 : x.2.1 = kg.2
      · rw [if_pos ⟨h1, h2⟩, if_pos h2]
      · rw [if_neg (by rintro ⟨_, hc⟩; exact h2 hc), if_neg h2]
    · by_cases h3 : x.1.size = x.2.2
      · rw [if_neg (by rintro ⟨hc, _⟩; exact hc h3),
          if_neg (by rintro ⟨hc, _⟩; exact hc h3.symm)]
      · by_cases h4 : x.2.1 + 1 = kg.2
        · rw [if_pos ⟨h3, h1, h4⟩, if_pos ⟨fun hc => h3 hc.symm, h4⟩]
        · rw [if_neg (by rintro ⟨_, _, hc⟩; exact h4 hc),
            if_neg (by rintro ⟨_, hc⟩; exact h4 hc)]
  · rw [if_neg h1]
    rw [if_neg (by rintro ⟨hc, _⟩; exact h1 hc),
      if_neg (by rintro ⟨_, hc, _⟩; exact h1 hc)]
    simp

theorem dollar_group_sum (B : ℚ) (sbd : Bool) (trades : List Trade)
    (kg : (String × ℤ) × ℤ)
    (hpos : ∀ r ∈ sortByTs (dropNulls trades), 0 < r.price) :
    (((dollarSplit B sbd trades).filter
        fun y => (partKey sbd y.1, y.2) = kg).map
      fun y => y.1.price * y.1.size).sum
      = ((withGroups B 0 (((sortByTs (dropNulls trades)).filter
            fun r => partKey sbd r = kg.1).map
          fun r => r.price * r.size)).map (contrib kg.2)).sum := by
  have hfm : (assign B (partKey sbd) (fun r => r.price * r.size)
        (sortByTs (dropNulls trades)) (fun _ => 0)).filterMap
      (fun x => if partKey sbd x.1 = kg.1 then some (x.1.price * x.1.size, x.2) else none)
      = withGroups B 0 (((sortByTs (dropNulls trades)).filter
          fun r => partKey sbd r = kg.1).map fun r => r.price * r.size) := by
    simpa using assign_filterMap B (partKey sbd) (fun r => r.price * r.size)
      (sortByTs (dropNulls trades)) (fun _ => 0) kg.1
  rw [← hfm, sum_filterMap_eq_sum]
  rw [dollarSplit, sum_splitStream_filter sbd kg _ (fun r => r.price * r.size),
    dollarAssigned, List.map_map]
  refine congrArg List.sum (List.map_congr_left ?_)
  intro x hx
  have hx1 : x.1 ∈ sortByTs (dropNulls trades) := by
    have h := List.mem_map_of_mem (·.1) hx
    rwa [assign_fst] at h
  have hp : 0 < x.1.price := hpos x.1 hx1
  simp only [Function.comp_apply]
  have hval : x.1.price * (x.2.2 / x.1.price) = x.2.2 := by
    rw [mul_comm, div_mul_cancel₀ _ hp.ne']
  have hcond : (x.1.size = x.2.2 / x.1.price) ↔ (x.1.price * x.1.size = x.2.2) := by
    rw [eq_div_iff hp.ne', mul_comm]
  by_cases h1 : partKey sbd x.1 = kg.1
  · rw [if_pos h1, Option.map_some', Option.getD_some]
    show _ = contrib kg.2 (x.1.price * x.1.size, x.2.1, x.2.2)
    unfold contrib
    congr 1
    · by_cases h2 : x.2.1 = kg.2
      · rw [if_pos ⟨h1, h2⟩, if_pos h2]
        exact hval
      · rw [if_neg (by rintro ⟨_, hc⟩; exact h2 hc), if_neg h2]
    · by_cases h3 : x.1.size = x.2.2 / x.1.price
      · rw [if_neg (by rintro ⟨hc, _⟩; exact hc h3),
          if_neg (by rintro ⟨hc, _⟩; exact hc (hcond.mp h3).symm)]
      · by_cases h4 : x.2.1 + 1 = kg.2
        · rw [if_pos ⟨h3, h1, h4⟩,
            if_pos ⟨fun hc => h3 (hcond.mpr hc.symm), h4⟩]
          rw [mul_sub, hval]
        · rw [if_neg (by rintro ⟨_, _, hc⟩; exact h4 hc),
            if_neg (by rintro ⟨_, hc⟩; exact h4 hc)]
  · rw [if_neg h1]
    rw [if_neg (by rintro ⟨hc, _⟩; exact h1 hc),
      if_neg (by rintro ⟨_, hc, _⟩; exact h1 hc)]
    simp

theorem mem_splitStream {l : List (Row × ℤ × ℚ)} {y : Row × ℤ} (hy : y ∈ splitStream l) :
    ∃ x ∈ l, y = ({ x.1 with size := x.2.2 }, x.2.1) ∨
      (x.1.size ≠ x.2.2 ∧ y = ({ x.1 with size := x.1.size - x.2.2 }, x.2.1 + 1)) := by
  rw [splitStream] at hy
  rcases List.mem_append.mp hy with hy | hy
  · rcases List.mem_map.mp hy with ⟨x, hx, hxy⟩
    exact ⟨x, hx, Or.inl hxy.symm⟩
  · rcases List.mem_map.mp hy with ⟨x, hx, hxy⟩
    have hx' := List.mem_filter.mp hx
    exact ⟨x, hx'.1, Or.inr ⟨by simpa using hx'.2, hxy.symm⟩⟩

theorem rows_size_bounds (B : ℚ) (trades : List Trade)
    (htr : ∀ t ∈ trades, 0 < t.size ∧ t.size ≤ B) :
    ∀ r ∈ sortByTs (dropNulls trades), 0 < r.size ∧ r.size ≤ B := by
  intro r hr
  unfold sortByTs at hr
  have hmem : r ∈ dropNulls trades :=
    (isortBy_perm (fun r : Row => r.ts) (dropNulls trades)).mem_iff.mp hr
  obtain ⟨t, ht, hts, _⟩ := mem_dropNulls_size hmem
  rw [← hts]
  exact htr t ht

theorem rows_dollar_bounds (B : ℚ) (trades : List Trade)
    (htr : ∀ t ∈ trades, 0 < t.size ∧ t.price.elim True fun p => 0 < p ∧ p * t.size ≤ B) :
    ∀ r ∈ sortByTs (dropNulls trades),
      0 < r.price ∧ 0 < r.size ∧ r.price * r.size ≤ B := by
  intro r hr
  unfold sortByTs at hr
  have hmem : r ∈ dropNulls trades :=
    (isortBy_perm (fun r : Row => r.ts) (dropNulls trades)).mem_iff.mp hr
  obtain ⟨t, ht, hts, hp⟩ := mem_dropNulls_size hmem
  obtain ⟨hs, hpe⟩ := htr t ht
  rw [hp] at hpe
  simp only [Option.elim_some] at hpe
  rw [← hts]
  exact ⟨hpe.1, hs, hpe.2⟩

theorem volumeSplit_size_pos (B : ℚ) (hB : 0 < B) (sbd : Bool) (trades : List Trade)
    (h : ∀ r ∈ sortByTs (dropNulls trades), 0 < r.size) :
    ∀ y ∈ volumeSplit B sbd trades, 0 < y.1.size := by
  intro y hy
  obtain ⟨x, hx, hcase⟩ := mem_splitStream hy
  rw [volumeAssigned] at hx
  obtain ⟨s, _, hamt⟩ := assign_mem_shape B (partKey sbd) (·.size) _ _ x hx
  have hx1 : x.1 ∈ sortByTs (dropNulls trades) := by
    have hm := List.mem_map_of_mem (·.1) hx
    rwa [assign_fst] at hm
  have hm := h x.1 hx1
  have hcap : 0 < B - qmod s B := by
    have := qmod_lt B s hB
    linarith
  have hA : 0 < x.2.2 := by
    rw [hamt]
    exact lt_min hm hcap
  rcases hcase with hcase | ⟨hne, hcase⟩
  · rw [hcase]
    exact hA
  · rw [hcase]
    have hle : x.2.2 ≤ x.1.size := by
      rw [hamt]
      exact min_le_left _ _
    show 0 < x.1.size - x.2.2
    rcases lt_or_eq_of_le hle with hlt | heq
    · linarith
    · exact absurd heq.symm hne

theorem dollarSplit_pos (B : ℚ) (hB : 0 < B) (sbd : Bool) (trades : List Trade)
    (h : ∀ r ∈ sortByTs (dropNulls trades), 0 < r.price ∧ 0 < r.size) :
    ∀ y ∈ dollarSplit B sbd trades, 0 < y.1.price ∧ 0 < y.1.size := by
  intro y hy
  obtain ⟨x', hx', hcase⟩ := mem_splitStream hy
  rw [dollarAssigned] at hx'
  rcases List.mem_map.mp hx' with ⟨x, hx, hdv⟩
  obtain ⟨s, _, hamt⟩ := assign_mem_shape B (partKey sbd) (fun r => r.price * r.size) _ _ x hx
  have hx1 : x.1 ∈ sortByTs (dropNulls trades) := by
    have hm := List.mem_map_of_mem (·.1) hx
    rwa [assign_fst] at hm
  obtain ⟨hp, hs⟩ := h x.1 hx1
  have hcap : 0 < B - qmod s B := by
    have := qmod_lt B s hB
    linarith
  have hA : 0 < x.2.2 := by
    rw [hamt]
    exact lt_min (mul_pos hp hs) hcap
  have hAle : x.2.2 ≤ x.1.price * x.1.size := by
    rw [hamt]
    exact min_le_left _ _
  subst hdv
  rcases hcase with hcase | ⟨hne, hcase⟩
  · rw [hcase]
    exact ⟨hp, div_pos hA hp⟩
  · rw [hcase]
    refine ⟨hp, ?_⟩
    show 0 < x.1.size - x.2.2 / x.1.price
    have hdle : x.2.2 / x.1.price ≤ x.1.size := by
      rw [div_le_iff₀ hp, mul_comm]
      exact hAle
    rcases lt_or_eq_of_le hdle with hlt | heq
    · linarith
    · exact absurd heq.symm hne

theorem volumeSplit_gid_nonneg (B : ℚ) (hB : 0 < B) (sbd : Bool) (trades : List Trade)
    (h : ∀ r ∈ sortByTs (dropNulls trades), 0 < r.size) :
    ∀ y ∈ volumeSplit B sbd trades, 0 ≤ y.2 := by
  intro y hy
  obtain ⟨x, hx, hcase⟩ := mem_splitStream hy
  rw [volumeAssigned] at hx
  have hgid : 0 ≤ x.2.1 := by
    refine assign_gid_nonneg B hB (partKey sbd) (·.size) _ _ ?_ (fun _ => le_refl 0) x hx
    exact fun r hr => (h r hr).le
  rcases hcase with hcase | ⟨_, hcase⟩ <;> rw [hcase] <;> simp <;> omega

theorem dollarSplit_gid_nonneg (B : ℚ) (hB : 0 < B) (sbd : Bool) (trades : List Trade)
    (h : ∀ r ∈ sortByTs (dropNulls trades), 0 < r.price ∧ 0 < r.size) :
    ∀ y ∈ dollarSplit B sbd trades, 0 ≤ y.2 := by
  intro y hy
  obtain ⟨x', hx', hcase⟩ := mem_splitStream hy
  rw [dollarAssigned] at hx'
  rcases List.mem_map.mp hx' with ⟨x, hx, hdv⟩
  have hgid : 0 ≤ x.2.1 := by
    refine assign_gid_nonneg B hB (partKey sbd) (fun r => r.price * r.size) _ _ ?_
      (fun _ => le_refl 0) x hx
    intro r hr
    exact (mul_pos (h r hr).1 (h r hr).2).le
  have hg' : x'.2.1 = x.2.1 := by rw [← hdv]
  rcases hcase with hcase | ⟨_, hcase⟩ <;> rw [hcase, hg'] <;> simp <;> omega

theorem mem_barsOf {α κ : Type} [DecidableEq κ] {gk : α → κ} {toRow : α → Row}
    {l : List α} {b : κ × Ohlcv} (hb : b ∈ barsOf gk toRow l) :
    (∃ x ∈ l, gk x = b.1) ∧
    b.2 = ohlcvAgg ((l.filter fun x => gk x = b.1).map toRow) := by
  unfold barsOf at hb
  rcases List.mem_map.mp hb with ⟨kk, hkk, hbk⟩
  have hk1 : b.1 = kk := by rw [← hbk]
  have hmem : kk ∈ l.map gk := (mem_firstKeys _ kk).mp hkk
  rcases List.mem_map.mp hmem with ⟨x, hx, hgx⟩
  refine ⟨⟨x, hx, by rw [hgx, hk1]⟩, ?_⟩
  rw [hk1, ← hbk]

theorem volumeBarsKeyed_volume_eq {B : ℚ} {sbd : Bool} {trades : List Trade}
    {b : ((String × ℤ) × ℤ) × Ohlcv} (hb : b ∈ volumeBarsKeyed B sbd trades) :
    b.2.volume = (((volumeSplit B sbd trades).filter
        fun y => (partKey sbd y.1, y.2) = b.1).map fun y => y.1.size).sum := by
  obtain ⟨_, hagg⟩ := mem_barsOf hb
  rw [hagg]
  show ((((volumeSplit B sbd trades).filter
      fun y => (partKey sbd y.1, y.2) = b.1).map (·.1)).map (·.size)).sum = _
  rw [List.map_map]
  rfl

theorem clamp_pos_implies (B : ℚ) (g : ℤ) (M : ℚ)
    (h : 0 < clampQ g B M - clampQ g B 0) : (g : ℚ) * B < M := by
  have hc0 : (g : ℚ) * B ≤ clampQ g B 0 := le_max_left _ _
  have hlt : (g : ℚ) * B < clampQ g B M := by linarith
  unfold clampQ at hlt
  rcases lt_max_iff.mp hlt with h1 | h1
  · exact absurd h1 (lt_irrefl _)
  · exact (lt_min_iff.mp h1).1

theorem clamp_final (B : ℚ) (hB : 0 < B) (g : ℤ) (M : ℚ) (hg : 0 ≤ g)
    (hM : ((g : ℚ) + 1) * B ≤ M) :
    clampQ g B M - clampQ g B 0 = B := by
  have hgq : (0 : ℚ) ≤ (g : ℚ) := by exact_mod_cast hg
  have h1 : (0 : ℚ) ≤ ((g : ℚ) + 1) * B := by nlinarith
  have h2 : (0 : ℚ) ≤ (g : ℚ) * B := mul_nonneg hgq hB.le
  have h3 : (g : ℚ) * B ≤ ((g : ℚ) + 1) * B := by nlinarith
  unfold clampQ
  rw [min_eq_right hM, max_eq_right h3, min_eq_left h1, max_eq_left h2]
  ring

/-- C2 (amended): when every trade's threshold metric is positive and at most
`bar_size` (size for volume bars; price·size for dollar bars, with positive
prices), every non-final emitted bar of a partition — one whose partition has
a bar with a greater group id — has total metric exactly `bar_size`: its
volume for volume bars, and the sum of `price · size` over its contributing
rows for dollar bars (exactly, in the rational model).  Without the
metric ≤ bar_size bound the code puts a large trade's whole remainder in
group `id + 1`, which can exceed `bar_size` (see the counterexample). -/
theorem threshold_bound_amended :
    (∀ (B : ℚ) (sbd : Bool) (trades : List Trade),
      0 < B →
      (∀ t ∈ trades, 0 < t.size ∧ t.size ≤ B) →
      ∀ b1 ∈ volumeBarsKeyed B sbd trades, ∀ b2 ∈ volumeBarsKeyed B sbd trades,
        b1.1.1 = b2.1.1 → b1.1.2 < b2.1.2 → b1.2.volume = B) ∧
    (∀ (B : ℚ) (sbd : Bool) (trades : List Trade),
      0 < B →
      (∀ t ∈ trades, 0 < t.size ∧ t.price.elim True fun p => 0 < p ∧ p * t.size ≤ B) →
      ∀ b1 ∈ dollarBarsKeyed B sbd trades, ∀ b2 ∈ dollarBarsKeyed B sbd trades,
        b1.1.1 = b2.1.1 → b1.1.2 < b2.1.2 →
        (((dollarSplit B sbd trades).filter
            fun y => (partKey sbd y.1, y.2) = b1.1).map
          fun y => y.1.price * y.1.size).sum = B) := by
  constructor
  · intro B sbd trades hB htr b1 hb1 b2 hb2 hkey hlt
    have hrows := rows_size_bounds B trades htr
    have hsz : ∀ r ∈ sortByTs (dropNulls trades), 0 < r.size := fun r hr => (hrows r hr).1
    obtain ⟨⟨x1, hx1s, hgx1⟩, _⟩ := mem_barsOf hb1
    obtain ⟨⟨x2, hx2s, hgx2⟩, _⟩ := mem_barsOf hb2
    have hms : ∀ m ∈ ((sortByTs (dropNulls trades)).filter
        fun r => partKey sbd r = b1.1.1).map (·.size), 0 < m ∧ m ≤ B := by
      intro m hm
      rcases List.mem_map.mp hm with ⟨r, hrf, hrm⟩
      rw [← hrm]
      exact hrows r (List.mem_filter.mp hrf).1
    have hv1 : b1.2.volume = clampQ b1.1.2 B
        (((sortByTs (dropNulls trades)).filter
          fun r => partKey sbd r = b1.1.1).map (·.size)).sum - clampQ b1.1.2 B 0 := by
      rw [volumeBarsKeyed_volume_eq hb1, volume_group_sum B sbd trades b1.1,
        contribSum_withGroups B hB b1.1.2 _ hms 0, zero_add]
    have hv2 : b2.2.volume = clampQ b2.1.2 B
        (((sortByTs (dropNulls trades)).filter
          fun r => partKey sbd r = b1.1.1).map (·.size)).sum - clampQ b2.1.2 B 0 := by
      rw [volumeBarsKeyed_volume_eq hb2, volume_group_sum B sbd trades b2.1, ← hkey,
        contribSum_withGroups B hB b2.1.2 _ hms 0, zero_add]
    have hpos2 : 0 < b2.2.volume := by
      rw [volumeBarsKeyed_volume_eq hb2]
      refine List.sum_pos _ ?_ ?_
      · intro v hv
        rcases List.mem_map.mp hv with ⟨y, hyf, hyv⟩
        rw [← hyv]
        exact volumeSplit_size_pos B hB sbd trades hsz y (List.mem_filter.mp hyf).1
      · exact List.ne_nil_of_mem
          (List.mem_map_of_mem _ (List.mem_filter.mpr ⟨hx2s, by simp [hgx2]⟩))
    rw [hv2] at hpos2
    have hMgt := clamp_pos_implies B b2.1.2 _ hpos2
    have hg1 : 0 ≤ b1.1.2 := by
      have hnn := volumeSplit_gid_nonneg B hB sbd trades hsz x1 hx1s
      have hx1g : x1.2 = b1.1.2 := congrArg Prod.snd hgx1
      omega
    have hc : (b1.1.2 : ℚ) + 1 ≤ (b2.1.2 : ℚ) := by
      exact_mod_cast (by omega : b1.1.2 + 1 ≤ b2.1.2)
    have hmul := mul_le_mul_of_nonneg_right hc hB.le
    have hM : ((b1.1.2 : ℚ) + 1) * B ≤ (((sortByTs (dropNulls trades)).filter
        fun r => partKey sbd r = b1.1.1).map (·.size)).sum := by linarith
    rw [hv1, clamp_final B hB b1.1.2 _ hg1 hM]
  · intro B sbd trades hB htr b1 hb1 b2 hb2 hkey hlt
    have hrows := rows_dollar_bounds B trades htr
    have hpr : ∀ r ∈ sortByTs (dropNulls trades), 0 < r.price :=
      fun r hr => (hrows r hr).1
    have hps : ∀ r ∈ sortByTs (dropNulls trades), 0 < r.price ∧ 0 < r.size :=
      fun r hr => ⟨(hrows r hr).1, (hrows r hr).2.1⟩
    obtain ⟨⟨x1, hx1s, hgx1⟩, _⟩ := mem_barsOf hb1
    obtain ⟨⟨x2, hx2s, hgx2⟩, _⟩ := mem_barsOf hb2
    have hms : ∀ m ∈ ((sortByTs (dropNulls trades)).filter
        fun r => partKey sbd r = b1.1.1).map (fun r => r.price * r.size),
        0 < m ∧ m ≤ B := by
      intro m hm
      rcases List.mem_map.mp hm with ⟨r, hrf, hrm⟩
      rw [← hrm]
      have h := hrows r (List.mem_filter.mp hrf).1
      exact ⟨mul_pos h.1 h.2.1, h.2.2⟩
    have hv1 : (((dollarSplit B sbd trades).filter
        fun y => (partKey sbd y.1, y.2) = b1.1).map
          fun y => y.1.price * y.1.size).sum
        = clampQ b1.1.2 B (((sortByTs (dropNulls trades)).filter
            fun r => partKey sbd r = b1.1.1).map (fun r => r.price * r.size)).sum
          - clampQ b1.1.2 B 0 := by
      rw [dollar_group_sum B sbd trades b1.1 hpr,
        contribSum_withGroups B hB b1.1.2 _ hms 0, zero_add]
    have hv2 : (((dollarSplit B sbd trades).filter
        fun y => (partKey sbd y.1, y.2) = b2.1).map
          fun y => y.1.price * y.1.size).sum
        = clampQ b2.1.2 B (((sortByTs (dropNulls trades)).filter
            fun r => partKey sbd r = b1.1.1).map (fun r => r.price * r.size)).sum
          - clampQ b2.1.2 B 0 := by
      rw [dollar_group_sum B sbd trades b2.1 hpr, ← hkey,
        contribSum_withGroups B hB b2.1.2 _ hms 0, zero_add]
    have hpos2 : 0 < (((dollarSplit B sbd trades).filter
        fun y => (partKey sbd y.1, y.2) = b2.1).map
          fun y => y.1.price * y.1.size).sum := by
      refine List.sum_pos _ ?_ ?_
      · intro v hv
        rcases List.mem_map.mp hv with ⟨y, hyf, hyv⟩
        rw [← hyv]
        have h := dollarSplit_pos B hB sbd trades hps y (List.mem_filter.mp hyf).1
        exact mul_pos h.1 h.2
      · exact List.ne_nil_of_mem
          (List.mem_map_of_mem _ (List.mem_filter.mpr ⟨hx2s, by simp [hgx2]⟩))
    rw [hv2] at hpos2
    have hMgt := clamp_pos_implies B b2.1.2 _ hpos2
    have hg1 : 0 ≤ b1.1.2 := by
      have hnn := dollarSplit_gid_nonneg B hB sbd trades hps x1 hx1s
      have hx1g : x1.2 = b1.1.2 := congrArg Prod.snd hgx1
      omega
    have hc : (b1.1.2 : ℚ) + 1 ≤ (b2.1.2 : ℚ) := by
      exact_mod_cast (by omega : b1.1.2 + 1 ≤ b2.1.2)
    have hmul := mul_le_mul_of_nonneg_right hc hB.le
    have hM : ((b1.1.2 : ℚ) + 1) * B ≤ (((sortByTs (dropNulls trades)).filter
        fun r => partKey sbd r = b1.1.1).map (fun r => r.price * r.size)).sum := by
      linarith
    rw [hv1, clamp_final B hB b1.1.2 _ hg1 hM]

/-- C2 counterexample: with trades of sizes `12` and `1` and `bar_size = 5`,
the emitted bars (by group id) have volumes `5`, `7` and `1`: the non-final
group `1` holds the oversized trade's entire remainder `7 ≠ 5`, refuting the
claim as stated. -/
theorem threshold_bound_counterexample :
    (volumeBarsKeyed 5 true [⟨"A", 0, some 1, 12⟩, ⟨"A", 1, some 1, 1⟩]).map
        (fun kb => (kb.1.2, kb.2.volume)) = [(0, 5), (2, 1), (1, 7)] ∧
    ¬ (∀ b ∈ volumeBarsKeyed 5 true [⟨"A", 0, some 1, 12⟩, ⟨"A", 1, some 1, 1⟩],
        (∃ b' ∈ volumeBarsKeyed 5 true [⟨"A", 0, some 1, 12⟩, ⟨"A", 1, some 1, 1⟩],
          b.1.2 < b'.1.2) → b.2.volume = 5) := by
  with_unfolding_all decide

/-- Witness for C2's amended statement at a concrete input: four trades of
sizes `3, 3, 4, 2` (all ≤ bar_size = 5, prices 1) produce bars with volumes
`5, 5, 2`; the first bar (group 0) is non-final and its volume — and dollar
total — is exactly `5`. -/
theorem threshold_bound_amended_witness :
    ((0 : ℚ) < 5 ∧
      (∀ t ∈ [(⟨"A", 0, some 1, 3⟩ : Trade), ⟨"A", 1, some 1, 3⟩,
          ⟨"A", 2, some 1, 4⟩, ⟨"A", 3, some 1, 2⟩], 0 < t.size ∧ t.size ≤ 5) ∧
      ((((("A", 0), 0), (⟨0, 1, 1, 1, 1, 1, 1, 5, 2⟩ : Ohlcv)) ∈
          volumeBarsKeyed 5 true [⟨"A", 0, some 1, 3⟩, ⟨"A", 1, some 1, 3⟩,
            ⟨"A", 2, some 1, 4⟩, ⟨"A", 3, some 1, 2⟩]) ∧
        (((("A", 0), 2), (⟨3, 3, 1, 1, 1, 1, 1, 2, 1⟩ : Ohlcv)) ∈
          volumeBarsKeyed 5 true [⟨"A", 0, some 1, 3⟩, ⟨"A", 1, some 1, 3⟩,
            ⟨"A", 2, some 1, 4⟩, ⟨"A", 3, some 1, 2⟩])) ∧
      ((((("A", 0), 0), (⟨0, 1, 1, 1, 1, 1, 1, 5, 2⟩ : Ohlcv)) :
          ((String × ℤ) × ℤ) × Ohlcv).2.volume = 5)) := by
  refine ⟨by norm_num, by with_unfolding_all decide, ⟨?m1, ?m2⟩, ?_⟩
  case m1 => with_unfolding_all decide
  case m2 => with_unfolding_all decide
  exact threshold_bound_amended.1 5 true
    [⟨"A", 0, some 1, 3⟩, ⟨"A", 1, some 1, 3⟩, ⟨"A", 2, some 1, 4⟩, ⟨"A", 3, some 1, 2⟩]
    (by norm_num) (by with_unfolding_all decide)
    ((("A", 0), 0), (⟨0, 1, 1, 1, 1, 1, 1, 5, 2⟩ : Ohlcv))
    (by with_unfolding_all decide)
    ((("A", 0), 2), (⟨3, 3, 1, 1, 1, 1, 1, 2, 1⟩ : Ohlcv))
    (by with_unfolding_all decide) rfl (by decide)

end PolarsTrading
